import Mathlib

/-!
# Verification of the golambda DynamoDB mapper core

This development gives a shallow embedding, in Lean 4, of the core logic of the
`golambda` repository: the tag-derived version and timestamp builders of the
struct mapper (`ddb/mapper/mapper.go` and `ddb/v2/table.go`), the pagination
token codec (`ddb/opaquetoken`), and the batch read/write engine
(`ddb/updatable.go`, the batch part of the save module).  Pure Go functions
become Lean functions; Go maps become association lists; Go machine integers
become `Nat`/`Int` with explicit wrapping modulo `2 ^ 64` where Go's fixed-width
arithmetic matters; fallible Go functions return `Except`/custom result types,
with a distinguished constructor for a Go runtime panic.  External collaborators
(the AWS attributevalue encoder, `encoding/json`, the AES-GCM AEAD of the Go
standard library, and the DynamoDB service itself) are modeled by executable
stand-ins whose doc comments state exactly what is being modeled.
-/

namespace Golambda

instance {ε α : Type} [DecidableEq ε] [DecidableEq α] : DecidableEq (Except ε α) := fun x y =>
  match x, y with
  | .ok a, .ok b =>
    if h : a = b then .isTrue (congrArg Except.ok h)
    else .isFalse fun hc => h (Except.ok.inj hc)
  | .error a, .error b =>
    if h : a = b then .isTrue (congrArg Except.error h)
    else .isFalse fun hc => h (Except.error.inj hc)
  | .ok _, .error _ => .isFalse fun hc => Except.noConfusion hc
  | .error _, .ok _ => .isFalse fun hc => Except.noConfusion hc

/-- Association-list update-or-append: the meaning of a Go map assignment
`m[k] = v` on a map represented as a list of entries with distinct keys. -/
def setEntry {α : Type} : List (String × α) → String → α → List (String × α)
  | [], k, v => [(k, v)]
  | (k', v') :: rest, k, v =>
    if k' = k then (k, v) :: rest else (k', v') :: setEntry rest k v

/-- Association-list lookup: the meaning of a Go map read `m[k]`. -/
def lookupEntry {α : Type} : List (String × α) → String → Option α
  | [], _ => none
  | (k', v') :: rest, k => if k' = k then some v' else lookupEntry rest k

theorem lookupEntry_setEntry_self {α : Type} (m : List (String × α)) (k : String) (v : α) :
    lookupEntry (setEntry m k v) k = some v := by
  induction m with
  | nil => simp [setEntry, lookupEntry]
  | cons e rest ih =>
    obtain ⟨k', v'⟩ := e
    by_cases h : k' = k
    · simp [setEntry, lookupEntry, h]
    · simp [setEntry, lookupEntry, h, ih]

theorem lookupEntry_setEntry_ne {α : Type} (m : List (String × α)) (k k' : String) (v : α)
    (h : k' ≠ k) : lookupEntry (setEntry m k' v) k = lookupEntry m k := by
  induction m with
  | nil => simp [setEntry, lookupEntry, h]
  | cons e rest ih =>
    obtain ⟨k₀, v₀⟩ := e
    by_cases h0 : k₀ = k'
    · subst h0
      simp [setEntry, lookupEntry, h]
    · by_cases h1 : k₀ = k
      · simp [setEntry, lookupEntry, h0, h1, Ne.symm h]
      · simp [setEntry, lookupEntry, h0, h1, ih]

/-- DynamoDB attribute values (`dynamodbtypes.AttributeValue`), restricted to
the member kinds this development needs: the three key-capable kinds S, N and B,
plus BOOL and NULL as representatives of the remaining, non-key-capable kinds.
`N` carries the decimal text exactly as the Go SDK does; `B` carries the raw
bytes. -/
inductive AttributeValue where
  | S (s : String)
  | N (s : String)
  | B (bytes : List Nat)
  | BOOL (b : Bool)
  | NULL
deriving DecidableEq, Repr

/-- A marshaled item or key: the Go `map[string]dynamodbtypes.AttributeValue`. -/
abbrev AVMap := List (String × AttributeValue)

/-- Condition expressions produced by the version builders
(`expression.ConditionBuilder` restricted to the two shapes the builders emit):
`attribute_not_exists(#name)` and `#name = :value`. -/
inductive Cond where
  | attributeNotExists (name : String)
  | eqValue (name : String) (value : AttributeValue)
deriving DecidableEq, Repr

/-- Update-expression actions produced by the version/timestamp builders
(`expression.UpdateBuilder` restricted to the two SET shapes the builders emit):
`SET #name = :value` and `SET #name = #name + :one`. -/
inductive UpdateOp where
  | setValue (name : String) (value : AttributeValue)
  | setPlusOne (name : String)
deriving DecidableEq, Repr

/-- The attribute name an update action assigns to. -/
def UpdateOp.attr : UpdateOp → String
  | .setValue n _ => n
  | .setPlusOne n => n

/-! ## Version builders (`ddb/mapper/mapper.go` lines 323-396, `ddb/v2/table.go` lines 271-289)

The tag-derived version logic reads the record's version field through
reflection.  `parseType` classifies all Go integer kinds (and floats) as the
DynamoDB `N` type, and `isValidVersionAttribute` accepts exactly the `N`-typed
fields.  We embed the integer kinds: a version field value is a signed integer
of some bit width (`v.CanInt()` in Go) or an unsigned integer of some bit width
(`v.CanUint()`).  Float-typed version fields exist in Go but are outside this
embedding (floating point).  The width only matters through Go's 64-bit
arithmetic: `v.Int()`/`v.Uint()` widen the value to `int64`/`uint64` before the
`+ 1`. -/

/-- The value of a tag-classified numeric version field. -/
inductive VersionValue where
  | vint (width : Nat) (v : Int)
  | vuint (width : Nat) (v : Nat)
deriving DecidableEq, Repr

/-- `reflect.Value.IsZero` on a numeric version field. -/
def VersionValue.isZero : VersionValue → Bool
  | .vint _ v => v == 0
  | .vuint _ v => v == 0

/-- Well-formedness: the value fits the field's Go type (width at most 64). -/
def VersionValue.wf : VersionValue → Prop
  | .vint w v => 0 < w ∧ w ≤ 64 ∧ -(2 ^ (w - 1) : Int) ≤ v ∧ v < 2 ^ (w - 1)
  | .vuint w v => 0 < w ∧ w ≤ 64 ∧ v < 2 ^ w

/-- Go conversion `int64(n)` of a `uint64` value: reinterpret modulo `2 ^ 64`
into the signed range. -/
def toInt64 (n : Nat) : Int :=
  if n % 2 ^ 64 < 2 ^ 63 then ((n % 2 ^ 64 : Nat) : Int) else ((n % 2 ^ 64 : Nat) : Int) - 2 ^ 64

/-- Go `int64` addition result: wrap an exact integer into the `int64` range. -/
def wrapInt64 (x : Int) : Int := (x + 2 ^ 63) % 2 ^ 64 - 2 ^ 63

/-- The external attributevalue encoder applied to the current value of a
numeric version field (`m.encoder.Encode(v.Interface())`): integers marshal to
an `N` attribute holding their exact decimal text. -/
def encodeVersion : VersionValue → AttributeValue
  | .vint _ v => .N (toString v)
  | .vuint _ v => .N (toString v)

/-- Embedding of the tag-derived `putVersion` closure
(`ddb/mapper/mapper.go` lines 323-349) for integer-kind version fields.
Given the hash-key attribute name, the version attribute name, the record's
version field value and the marshaled item, it returns the condition expression
and the item with the version attribute overwritten:

* zero version: write `N "1"`, condition `attribute_not_exists(#hashKey)`;
* `CanInt`: write `strconv.FormatInt(v.Int()+1, 10)` — 64-bit wrap-around;
* `CanUint`: write `strconv.FormatInt(int64(v.Uint()+1), 10)` — note the Go
  source converts the incremented unsigned value through `int64`;
* non-zero cases get condition `#version = :currentValue` with the current
  value marshaled by the external encoder.

The Go error paths (field access or encoder failure) cannot fire for the
integer-kind fields embedded here, so the embedding is total. -/
def putVersion (hashKeyName versionName : String) (v : VersionValue) (item : AVMap) :
    Cond × AVMap :=
  if v.isZero then
    (.attributeNotExists hashKeyName, setEntry item versionName (.N "1"))
  else
    let item' := match v with
      | .vint _ n => setEntry item versionName (.N (toString (wrapInt64 (n + 1))))
      | .vuint _ n => setEntry item versionName (.N (toString (toInt64 (n + 1))))
    (.eqValue versionName (encodeVersion v), item')

/-- Embedding of the tag-derived `updateVersion` closure
(`ddb/mapper/mapper.go` lines 351-371): zero version appends
`SET #version = :one` and returns `attribute_not_exists(#hashKey)`; a non-zero
version appends `SET #version = #version + :one` and returns
`#version = :currentValue`. -/
def updateVersion (hashKeyName versionName : String) (v : VersionValue)
    (update : List UpdateOp) : List UpdateOp × Cond :=
  if v.isZero then
    (update ++ [.setValue versionName (.N "1")], .attributeNotExists hashKeyName)
  else
    (update ++ [.setPlusOne versionName], .eqValue versionName (encodeVersion v))

/-- Embedding of `Table.ExpectVersion` (`ddb/v2/table.go` lines 272-284): an
`attribute_not_exists(#hashKey)` condition when the version field is zero, else
`#version = :currentValue`. -/
def tableExpectVersion (hashKeyName versionName : String) (v : VersionValue) : Cond :=
  if v.isZero then .attributeNotExists hashKeyName
  else .eqValue versionName (encodeVersion v)

/-- Embedding of `Table.NextVersion` (`ddb/v2/table.go` lines 286-288): always
the single action `SET #version = #version + :one`, independent of the record's
current version. -/
def tableNextVersion (versionName : String) : List UpdateOp :=
  [.setPlusOne versionName]

/-- Interpretation of an update-action list: the numeric value the version
attribute holds after the actions run, reading `#version` as `current` when the
actions reference it (last assignment wins, mirroring expression semantics). -/
def writtenVersion (current : Int) (versionName : String) (ops : List UpdateOp) : Option Int :=
  ops.foldl
    (fun acc op =>
      match op with
      | .setValue n v =>
        if n = versionName then
          match v with
          | .N s => s.toInt?
          | _ => none
        else acc
      | .setPlusOne n => if n = versionName then some (current + 1) else acc)
    none

/-! ## Timestamp builders (`ddb/mapper/mapper.go` lines 441-517, `ddb/v2/table.go` lines 291-351)

A timestamp field's Go value is `time.Time`-convertible; we model the instant as
an `Int` whose zero is the `time.Time` zero value, so `reflect.Value.IsZero`
becomes `t = 0`. -/

/-- A tag-classified timestamp attribute: its wire name and whether the
`unixtime` tag selects epoch-number marshaling. -/
structure TsAttr where
  name : String
  unixtime : Bool
deriving DecidableEq, Repr

/-- Marshaling a timestamp instant: `unixtime` fields marshal to an `N`
attribute (epoch seconds); otherwise the external attributevalue encoder
produces an RFC3339Nano `S` attribute, modeled injectively here because the
exact text is produced by the external library. -/
def timeAv (unixtime : Bool) (t : Int) : AttributeValue :=
  if unixtime then .N (toString t) else .S ("rfc3339nano " ++ toString t)

/-- Embedding of the tag-derived `putTimestamps` closure
(`ddb/mapper/mapper.go` lines 469-515).  `created` and `modified` are the
classified attributes together with the record's current field values (present
iff the record type declared the tag).  Each branch writes the configured
clock's current time into the item only when the record's field `IsZero`. -/
def putTimestamps (now : Int) (created modified : Option (TsAttr × Int)) (item : AVMap) :
    AVMap :=
  let item1 := match created with
    | some (a, t) => if t = 0 then setEntry item a.name (timeAv a.unixtime now) else item
    | none => item
  match modified with
  | some (a, t) => if t = 0 then setEntry item1 a.name (timeAv a.unixtime now) else item1
  | none => item1

/-- Embedding of the tag-derived `updateTimestamps` closure
(`ddb/mapper/mapper.go` lines 443-464): unconditionally appends
`SET #modified = :now` (epoch number or formatted string per the `unixtime`
tag); the created-timestamp attribute is never consulted. -/
def updateTimestamps (now : Int) (modified : TsAttr) (update : List UpdateOp) :
    List UpdateOp :=
  update ++ [.setValue modified.name (timeAv modified.unixtime now)]

/-- Embedding of `Table.PutTimestamps` (`ddb/v2/table.go` lines 312-351): the
same zero-gated writes as the mapper's `putTimestamps`. -/
def tablePutTimestamps (now : Int) (created modified : Option (TsAttr × Int)) (item : AVMap) :
    AVMap :=
  let item1 := match created with
    | some (a, t) => if t = 0 then setEntry item a.name (timeAv a.unixtime now) else item
    | none => item
  match modified with
  | some (a, t) => if t = 0 then setEntry item1 a.name (timeAv a.unixtime now) else item1
  | none => item1

/-- Embedding of `Table.UpdateTimestamps` (`ddb/v2/table.go` lines 293-311): a
fresh update expression with the single action `SET #modified = :now`. -/
def tableUpdateTimestamps (now : Int) (modified : TsAttr) : List UpdateOp :=
  [.setValue modified.name (timeAv modified.unixtime now)]

/-- C1: the claim says the next version written by the Put builder is always
exactly current + 1.  Refutation at a concrete input: a tag-classified `uint64`
version field holding `2 ^ 63 = 9223372036854775808` (a valid, non-zero
`N`-typed version per `parseType`/`isValidVersionAttribute`).  The Go source
computes `strconv.FormatInt(int64(v.Uint()+1), 10)`, reinterpreting the
incremented unsigned value as a signed `int64`, so the item's version attribute
becomes `N "-9223372036854775807"` while current + 1 is
`9223372036854775809`.  The equality condition is built from the current value
as the claim states, but the written version is not current + 1. -/
theorem c1_putVersion_uint64_not_plus_one :
    putVersion "hk" "version" (.vuint 64 9223372036854775808) []
      = (.eqValue "version" (.N "9223372036854775808"),
         [("version", .N "-9223372036854775807")])
    ∧ toString ((9223372036854775808 : Int) + 1) ≠ "-9223372036854775807" := by
  constructor
  · decide
  · decide

/-- C2: the claim says Put sets the modified-timestamp attribute from the
configured clock unconditionally, even when the record's field is non-zero.
Refutation at a concrete input: with the clock at 2000 and a record whose
`unixtime` modified-timestamp field holds the non-zero value 1000, both the
mapper's tag-derived `putTimestamps` and `Table.PutTimestamps` leave the
marshaled item unchanged (the write is gated on `IsZero`), so the item keeps
the stale `N "1000"` instead of the clock value `N "2000"`. -/
theorem c2_putTimestamps_modified_not_refreshed :
    putTimestamps 2000 none (some (⟨"modified", true⟩, 1000)) [("modified", .N "1000")]
      = [("modified", .N "1000")]
    ∧ tablePutTimestamps 2000 none (some (⟨"modified", true⟩, 1000)) [("modified", .N "1000")]
      = [("modified", .N "1000")]
    ∧ timeAv true 2000 ≠ .N "1000" := by
  refine ⟨by decide, by decide, by decide⟩

/-- C3: created-timestamp semantics.  For a record with a tag-classified
created-timestamp attribute `c` (current field value `tc`), whose
modified-timestamp attribute — when one exists — is a distinct attribute:
Put populates the created attribute with the clock value exactly when `tc` is
zero, leaves it untouched when `tc` is non-zero, and the Update builders
(mapper and v2 table) only ever add actions on the modified attribute, never on
the created one.  Both the mapper (`putTimestamps`/`updateTimestamps`) and the
v2 table (`tablePutTimestamps`/`tableUpdateTimestamps`) are covered. -/
theorem c3_createdTime_semantics (now : Int) (c : TsAttr) (tc : Int)
    (modified : Option (TsAttr × Int)) (item : AVMap) (u : List UpdateOp) (m : TsAttr)
    (hm : match modified with
          | some (a, _) => a.name ≠ c.name
          | none => True)
    (hmc : m.name ≠ c.name) :
    (tc = 0 →
      lookupEntry (putTimestamps now (some (c, tc)) modified item) c.name
        = some (timeAv c.unixtime now)
      ∧ lookupEntry (tablePutTimestamps now (some (c, tc)) modified item) c.name
        = some (timeAv c.unixtime now))
    ∧ (tc ≠ 0 →
      lookupEntry (putTimestamps now (some (c, tc)) modified item) c.name
        = lookupEntry item c.name
      ∧ lookupEntry (tablePutTimestamps now (some (c, tc)) modified item) c.name
        = lookupEntry item c.name)
    ∧ (∀ op ∈ updateTimestamps now m u, op ∈ u ∨ op.attr ≠ c.name)
    ∧ (∀ op ∈ tableUpdateTimestamps now m, op.attr ≠ c.name) := by
  refine ⟨?_, ?_, ?_, ?_⟩
  · intro h0
    subst h0
    constructor
    · cases modified with
      | none => simp [putTimestamps, lookupEntry_setEntry_self]
      | some p =>
        obtain ⟨a, t⟩ := p
        simp only [Option.some.injEq] at hm
        by_cases ht : t = 0
        · simp [putTimestamps, ht, lookupEntry_setEntry_ne _ _ _ _ hm,
            lookupEntry_setEntry_self]
        · simp [putTimestamps, ht, lookupEntry_setEntry_self]
    · cases modified with
      | none => simp [tablePutTimestamps, lookupEntry_setEntry_self]
      | some p =>
        obtain ⟨a, t⟩ := p
        by_cases ht : t = 0
        · simp [tablePutTimestamps, ht, lookupEntry_setEntry_ne _ _ _ _ hm,
            lookupEntry_setEntry_self]
        · simp [tablePutTimestamps, ht, lookupEntry_setEntry_self]
  · intro h0
    constructor
    · cases modified with
      | none => simp [putTimestamps, h0]
      | some p =>
        obtain ⟨a, t⟩ := p
        by_cases ht : t = 0
        · simp [putTimestamps, h0, ht, lookupEntry_setEntry_ne _ _ _ _ hm]
        · simp [putTimestamps, h0, ht]
    · cases modified with
      | none => simp [tablePutTimestamps, h0]
      | some p =>
        obtain ⟨a, t⟩ := p
        by_cases ht : t = 0
        · simp [tablePutTimestamps, h0, ht, lookupEntry_setEntry_ne _ _ _ _ hm]
        · simp [tablePutTimestamps, h0, ht]
  · intro op hop
    rcases List.mem_append.mp hop with h | h
    · exact Or.inl h
    · right
      simp only [List.mem_singleton] at h
      subst h
      simpa [UpdateOp.attr] using hmc
  · intro op hop
    simp only [tableUpdateTimestamps, List.mem_singleton] at hop
    subst hop
    simpa [UpdateOp.attr] using hmc

/-- Witness for C3 at a concrete input: a record with created attribute
`created` (zero-valued, `unixtime`) and a distinct modified attribute. -/
theorem c3_createdTime_semantics_witness :
    lookupEntry
        (putTimestamps 7 (some (⟨"created", true⟩, 0)) (some (⟨"modified", true⟩, 0)) [])
        "created" = some (timeAv true 7)
    ∧ (∀ op ∈ updateTimestamps 7 ⟨"modified", true⟩ [], op ∈ ([] : List UpdateOp)
        ∨ op.attr ≠ "created") := by
  have h := c3_createdTime_semantics 7 ⟨"created", true⟩ 0 (some (⟨"modified", true⟩, 0))
    [] [] ⟨"modified", true⟩ (by decide) (by decide)
  exact ⟨(h.1 rfl).1, h.2.2.1⟩

/-! ## The pagination token codec (`ddb/opaquetoken/token.go` and its AES transformer)

The token codec turns a last-evaluated key (1-2 attributes of kind S, N or B)
into `map[string]map[string]string`, serializes it with the external
`encoding/json` library, and optionally passes the serialized bytes through an
AES-GCM transformer.  Go strings are byte strings; where the codec manipulates
raw bytes (base64, AEAD) we use `List Nat` with every byte below 256.

The external `encoding/json` library is modeled by an executable, injective
byte serialization of a small JSON value type together with its parsing
inverse: the codec only relies on the library round-tripping
`map[string]map[string]string` values, and the model is restricted to the
two-level object shape this type occupies.  The serialization uses LEB128
length prefixes rather than JSON text; the JSON grammar itself is the external
library's concern. -/

/-- LEB128 encoding with structural fuel, so that the definition reduces in the
kernel; `fuel` bounds the number of 7-bit groups, and the caller supplies
enough. -/
def lebFuel : Nat → Nat → List Nat
  | 0, n => [n]
  | fuel + 1, n => if n < 128 then [n] else (128 + n % 128) :: lebFuel fuel (n / 128)

/-- LEB128 encoding of a natural number: 7 bits per byte, high bit marks a
continuation.  Every emitted byte is below 256. -/
def leb (n : Nat) : List Nat := lebFuel n n

/-- LEB128 decoding: returns the value and the unconsumed remainder. -/
def unleb : List Nat → Option (Nat × List Nat)
  | [] => none
  | b :: rest =>
    if b < 128 then some (b, rest)
    else
      match unleb rest with
      | some (m, r) => some ((b - 128) + 128 * m, r)
      | none => none

theorem lebFuel_wf : ∀ (fuel n : Nat), n ≤ 128 ∨ n ≤ fuel → ∀ b ∈ lebFuel fuel n, b < 256
  | 0, n, h => by
    intro b hb
    simp only [lebFuel, List.mem_singleton] at hb
    omega
  | fuel + 1, n, h => by
    intro b hb
    simp only [lebFuel] at hb
    by_cases hn : n < 128
    · simp [hn] at hb
      omega
    · simp only [hn, if_false, List.mem_cons] at hb
      rcases hb with rfl | hb
      · omega
      · exact lebFuel_wf fuel (n / 128) (by omega) b hb

theorem leb_wf (n : Nat) : ∀ b ∈ leb n, b < 256 :=
  lebFuel_wf n n (Or.inr le_rfl)

theorem unleb_lebFuel : ∀ (fuel n : Nat) (rest : List Nat), n < 128 ∨ n ≤ fuel →
    unleb (lebFuel fuel n ++ rest) = some (n, rest)
  | 0, n, rest, h => by
    have hn : n < 128 := by omega
    simp [lebFuel, unleb, hn]
  | fuel + 1, n, rest, h => by
    by_cases hn : n < 128
    · simp [lebFuel, hn, unleb]
    · simp only [lebFuel, hn, if_false, List.cons_append, unleb]
      have h1 : ¬(128 + n % 128 < 128) := by omega
      simp only [h1, if_false]
      have hrec : n / 128 < 128 ∨ n / 128 ≤ fuel := by
        right
        have := Nat.div_lt_self (show 0 < n by omega) (show 1 < 128 by omega)
        omega
      rw [unleb_lebFuel fuel (n / 128) rest hrec]
      have h2 : 128 + n % 128 - 128 + 128 * (n / 128) = n := by omega
      show some (128 + n % 128 - 128 + 128 * (n / 128), rest) = some (n, rest)
      rw [h2]

theorem unleb_leb (n : Nat) (rest : List Nat) :
    unleb (leb n ++ rest) = some (n, rest) :=
  unleb_lebFuel n n rest (Or.inr le_rfl)

/-- Serialization of a string: character count, then each character's code
point, all LEB128. -/
def serChars : List Char → List Nat
  | [] => []
  | c :: cs => leb c.toNat ++ serChars cs

def serStr (s : String) : List Nat :=
  leb s.data.length ++ serChars s.data

/-- Read `n` characters back. -/
def readChars : Nat → List Nat → Option (List Char × List Nat)
  | 0, bs => some ([], bs)
  | n + 1, bs =>
    match unleb bs with
    | none => none
    | some (m, bs1) =>
      match readChars n bs1 with
      | none => none
      | some (cs, bs2) => some (Char.ofNat m :: cs, bs2)

def readStr (bs : List Nat) : Option (String × List Nat) :=
  match unleb bs with
  | none => none
  | some (n, bs1) =>
    match readChars n bs1 with
    | none => none
    | some (cs, bs2) => some (String.mk cs, bs2)

theorem readChars_serChars (cs : List Char) (rest : List Nat) :
    readChars cs.length (serChars cs ++ rest) = some (cs, rest) := by
  induction cs with
  | nil => simp [serChars, readChars]
  | cons c cs ih =>
    simp only [List.length_cons, serChars, List.append_assoc, readChars, unleb_leb, ih]
    rw [Char.ofNat_toNat]

theorem readStr_serStr (s : String) (rest : List Nat) :
    readStr (serStr s ++ rest) = some (s, rest) := by
  simp only [serStr, List.append_assoc, readStr, unleb_leb, readChars_serChars]

theorem serChars_wf (cs : List Char) : ∀ b ∈ serChars cs, b < 256 := by
  induction cs with
  | nil => simp [serChars]
  | cons c cs ih =>
    intro b hb
    simp only [serChars, List.mem_append] at hb
    rcases hb with hb | hb
    · exact leb_wf _ b hb
    · exact ih b hb

theorem serStr_wf (s : String) : ∀ b ∈ serStr s, b < 256 := by
  intro b hb
  simp only [serStr, List.mem_append] at hb
  rcases hb with hb | hb
  · exact leb_wf _ b hb
  · exact serChars_wf _ b hb

/-- JSON primitive values as far as the token codec can observe them:
strings and numbers. -/
inductive JPrim where
  | jstr (s : String)
  | jnum (n : Int)
deriving DecidableEq, Repr

/-- A JSON value one level inside the token document: a primitive or an object
of primitives.  The codec exchanges `map[string]map[string]string`, so deeper
nesting never occurs on its wire. -/
inductive JVal where
  | prim (p : JPrim)
  | obj (fields : List (String × JPrim))
deriving DecidableEq, Repr

/-- A top-level JSON document on the token wire. -/
inductive JDoc where
  | prim (p : JPrim)
  | obj (fields : List (String × JVal))
deriving DecidableEq, Repr

def serInt (n : Int) : List Nat :=
  if 0 ≤ n then 0 :: leb n.toNat else 1 :: leb (-n).toNat

def readInt (bs : List Nat) : Option (Int × List Nat) :=
  match bs with
  | 0 :: bs1 =>
    match unleb bs1 with
    | some (m, bs2) => some ((m : Int), bs2)
    | none => none
  | 1 :: bs1 =>
    match unleb bs1 with
    | some (m, bs2) => some (-(m : Int), bs2)
    | none => none
  | _ => none

theorem readInt_serInt (n : Int) (rest : List Nat) :
    readInt (serInt n ++ rest) = some (n, rest) := by
  by_cases h : 0 ≤ n
  · simp only [serInt, h, if_true, List.cons_append, readInt, unleb_leb]
    congr 2
    omega
  · simp only [serInt, h, if_false, List.cons_append, readInt, unleb_leb]
    congr 2
    omega

def serPrim : JPrim → List Nat
  | .jstr s => 0 :: serStr s
  | .jnum n => 1 :: serInt n

def readPrim (bs : List Nat) : Option (JPrim × List Nat) :=
  match bs with
  | 0 :: bs1 =>
    match readStr bs1 with
    | some (s, bs2) => some (.jstr s, bs2)
    | none => none
  | 1 :: bs1 =>
    match readInt bs1 with
    | some (n, bs2) => some (.jnum n, bs2)
    | none => none
  | _ => none

theorem readPrim_serPrim (p : JPrim) (rest : List Nat) :
    readPrim (serPrim p ++ rest) = some (p, rest) := by
  cases p with
  | jstr s => simp [serPrim, readPrim, readStr_serStr]
  | jnum n => simp [serPrim, readPrim, readInt_serInt]

def serPFields : List (String × JPrim) → List Nat
  | [] => []
  | (k, p) :: rest => serStr k ++ serPrim p ++ serPFields rest

def readPFields : Nat → List Nat → Option (List (String × JPrim) × List Nat)
  | 0, bs => some ([], bs)
  | n + 1, bs =>
    match readStr bs with
    | none => none
    | some (k, bs1) =>
      match readPrim bs1 with
      | none => none
      | some (p, bs2) =>
        match readPFields n bs2 with
        | none => none
        | some (fs, bs3) => some ((k, p) :: fs, bs3)

theorem readPFields_serPFields (fs : List (String × JPrim)) (rest : List Nat) :
    readPFields fs.length (serPFields fs ++ rest) = some (fs, rest) := by
  induction fs with
  | nil => simp [serPFields, readPFields]
  | cons e fs ih =>
    obtain ⟨k, p⟩ := e
    simp only [List.length_cons, serPFields, List.append_assoc, readPFields, readStr_serStr,
      readPrim_serPrim, ih]

def serVal : JVal → List Nat
  | .prim p => 0 :: serPrim p
  | .obj fs => 1 :: (leb fs.length ++ serPFields fs)

def readVal (bs : List Nat) : Option (JVal × List Nat) :=
  match bs with
  | 0 :: bs1 =>
    match readPrim bs1 with
    | some (p, bs2) => some (.prim p, bs2)
    | none => none
  | 1 :: bs1 =>
    match unleb bs1 with
    | none => none
    | some (n, bs2) =>
      match readPFields n bs2 with
      | some (fs, bs3) => some (.obj fs, bs3)
      | none => none
  | _ => none

theorem readVal_serVal (v : JVal) (rest : List Nat) :
    readVal (serVal v ++ rest) = some (v, rest) := by
  cases v with
  | prim p => simp [serVal, readVal, readPrim_serPrim]
  | obj fs =>
    simp [serVal, readVal, unleb_leb, readPFields_serPFields]

def serVFields : List (String × JVal) → List Nat
  | [] => []
  | (k, v) :: rest => serStr k ++ serVal v ++ serVFields rest

def readVFields : Nat → List Nat → Option (List (String × JVal) × List Nat)
  | 0, bs => some ([], bs)
  | n + 1, bs =>
    match readStr bs with
    | none => none
    | some (k, bs1) =>
      match readVal bs1 with
      | none => none
      | some (v, bs2) =>
        match readVFields n bs2 with
        | none => none
        | some (fs, bs3) => some ((k, v) :: fs, bs3)

theorem readVFields_serVFields (fs : List (String × JVal)) (rest : List Nat) :
    readVFields fs.length (serVFields fs ++ rest) = some (fs, rest) := by
  induction fs with
  | nil => simp [serVFields, readVFields]
  | cons e fs ih =>
    obtain ⟨k, v⟩ := e
    simp only [List.length_cons, serVFields, List.append_assoc, readVFields, readStr_serStr,
      readVal_serVal, ih]

/-- Model of `json.Marshal` on the token document (see the section comment). -/
def serDoc : JDoc → List Nat
  | .prim p => 0 :: serPrim p
  | .obj fs => 1 :: (leb fs.length ++ serVFields fs)

def readDoc (bs : List Nat) : Option (JDoc × List Nat) :=
  match bs with
  | 0 :: bs1 =>
    match readPrim bs1 with
    | some (p, bs2) => some (.prim p, bs2)
    | none => none
  | 1 :: bs1 =>
    match unleb bs1 with
    | none => none
    | some (n, bs2) =>
      match readVFields n bs2 with
      | some (fs, bs3) => some (.obj fs, bs3)
      | none => none
  | _ => none

theorem readDoc_serDoc (d : JDoc) (rest : List Nat) :
    readDoc (serDoc d ++ rest) = some (d, rest) := by
  cases d with
  | prim p => simp [serDoc, readDoc, readPrim_serPrim]
  | obj fs =>
    simp [serDoc, readDoc, unleb_leb, readVFields_serVFields]

/-- Model of the parsing half of `json.Unmarshal`: the whole input must parse
as one document. -/
def jsonUnmarshal (bs : List Nat) : Except String JDoc :=
  match readDoc bs with
  | some (d, []) => .ok d
  | _ => .error "unmarshal token as JSON error"

theorem jsonUnmarshal_serDoc (d : JDoc) : jsonUnmarshal (serDoc d) = .ok d := by
  have h := readDoc_serDoc d []
  rw [List.append_nil] at h
  simp [jsonUnmarshal, h]

/-! ## Base64 (`encoding/base64` RawStdEncoding and RawURLEncoding)

The codec uses the Go standard library's unpadded base64: RawStdEncoding
(alphabet ending `+`,`/`) for binary attribute values inside the token JSON,
and RawURLEncoding (ending `-`,`_`) for the encrypted token itself.  Both are
embedded as executable functions over byte lists, parameterized by the two
trailing alphabet characters.  Go's decoder skips CR/LF bytes; that lenience is
not modeled (no claim depends on it).  Like Go's non-strict decoder, trailing
padding bits are ignored rather than rejected. -/

/-- Character (byte) of the base64 alphabet at index `i < 64`; `c62`/`c63` are
the two trailing alphabet bytes. -/
def b64chr (c62 c63 i : Nat) : Nat :=
  if i < 26 then 65 + i
  else if i < 52 then 97 + (i - 26)
  else if i < 62 then 48 + (i - 52)
  else if i = 62 then c62 else c63

/-- Alphabet index of a byte, `none` for a byte outside the alphabet. -/
def b64idx (c62 c63 c : Nat) : Option Nat :=
  if 65 ≤ c ∧ c ≤ 90 then some (c - 65)
  else if 97 ≤ c ∧ c ≤ 122 then some (c - 97 + 26)
  else if 48 ≤ c ∧ c ≤ 57 then some (c - 48 + 52)
  else if c = c62 then some 62
  else if c = c63 then some 63
  else none

/-- Unpadded base64 encoding of a byte list, three bytes to four characters. -/
def b64e (c62 c63 : Nat) : List Nat → List Nat
  | [] => []
  | [a] => [b64chr c62 c63 (a / 4), b64chr c62 c63 (a % 4 * 16)]
  | [a, b] =>
    [b64chr c62 c63 (a / 4), b64chr c62 c63 (a % 4 * 16 + b / 16), b64chr c62 c63 (b % 16 * 4)]
  | a :: b :: c :: rest =>
    b64chr c62 c63 (a / 4) :: b64chr c62 c63 (a % 4 * 16 + b / 16) ::
      b64chr c62 c63 (b % 16 * 4 + c / 64) :: b64chr c62 c63 (c % 64) :: b64e c62 c63 rest

/-- Unpadded base64 decoding; fails on a byte outside the alphabet or an input
whose length is congruent to 1 modulo 4 (`CorruptInputError`). -/
def b64d (c62 c63 : Nat) : List Nat → Except String (List Nat)
  | [] => .ok []
  | [_] => .error "illegal base64 data"
  | [w, x] =>
    match b64idx c62 c63 w, b64idx c62 c63 x with
    | some iw, some ix => .ok [iw * 4 + ix / 16]
    | _, _ => .error "illegal base64 data"
  | [w, x, y] =>
    match b64idx c62 c63 w, b64idx c62 c63 x, b64idx c62 c63 y with
    | some iw, some ix, some iy => .ok [iw * 4 + ix / 16, ix % 16 * 16 + iy / 4]
    | _, _, _ => .error "illegal base64 data"
  | w :: x :: y :: z :: rest =>
    match b64idx c62 c63 w, b64idx c62 c63 x, b64idx c62 c63 y, b64idx c62 c63 z with
    | some iw, some ix, some iy, some iz =>
      match b64d c62 c63 rest with
      | .ok bs => .ok ((iw * 4 + ix / 16) :: (ix % 16 * 16 + iy / 4) :: (iy % 4 * 64 + iz) :: bs)
      | .error e => .error e
    | _, _, _, _ => .error "illegal base64 data"

theorem b64idx_b64chr_std_fin : ∀ i : Fin 64, b64idx 43 47 (b64chr 43 47 i.val) = some i.val := by
  decide

theorem b64idx_b64chr_url_fin : ∀ i : Fin 64, b64idx 45 95 (b64chr 45 95 i.val) = some i.val := by
  decide

theorem b64idx_b64chr_std (i : Nat) (h : i < 64) : b64idx 43 47 (b64chr 43 47 i) = some i :=
  b64idx_b64chr_std_fin ⟨i, h⟩

theorem b64idx_b64chr_url (i : Nat) (h : i < 64) : b64idx 45 95 (b64chr 45 95 i) = some i :=
  b64idx_b64chr_url_fin ⟨i, h⟩

theorem b64chr_lt_128_std_fin : ∀ i : Fin 64, b64chr 43 47 i.val < 128 := by decide

theorem b64chr_lt_128_std (i : Nat) (h : i < 64) : b64chr 43 47 i < 128 :=
  b64chr_lt_128_std_fin ⟨i, h⟩

theorem b64d_b64e (c62 c63 : Nat)
    (hchr : ∀ i : Nat, i < 64 → b64idx c62 c63 (b64chr c62 c63 i) = some i) :
    ∀ bs : List Nat, (∀ b ∈ bs, b < 256) → b64d c62 c63 (b64e c62 c63 bs) = .ok bs
  | [], _ => by simp [b64e, b64d]
  | [a], h => by
    have ha : a < 256 := h a (by simp)
    have h1 := hchr (a / 4) (by omega)
    have h2 := hchr (a % 4 * 16) (by omega)
    have k1 : a / 4 * 4 + a % 4 * 16 / 16 = a := by omega
    simp only [b64e, b64d, h1, h2, k1]
  | [a, b], h => by
    have ha : a < 256 := h a (by simp)
    have hb : b < 256 := h b (by simp)
    have h1 := hchr (a / 4) (by omega)
    have h2 := hchr (a % 4 * 16 + b / 16) (by omega)
    have h3 := hchr (b % 16 * 4) (by omega)
    have k1 : a / 4 * 4 + (a % 4 * 16 + b / 16) / 16 = a := by omega
    have k2 : (a % 4 * 16 + b / 16) % 16 * 16 + b % 16 * 4 / 4 = b := by omega
    simp only [b64e, b64d, h1, h2, h3, k1, k2]
  | a :: b :: c :: rest, h => by
    have ha : a < 256 := h a (by simp)
    have hb : b < 256 := h b (by simp)
    have hc : c < 256 := h c (by simp)
    have h1 := hchr (a / 4) (by omega)
    have h2 := hchr (a % 4 * 16 + b / 16) (by omega)
    have h3 := hchr (b % 16 * 4 + c / 64) (by omega)
    have h4 := hchr (c % 64) (by omega)
    have hrest : ∀ x ∈ rest, x < 256 := fun x hx => h x (by simp [hx])
    have ih := b64d_b64e c62 c63 hchr rest hrest
    have k1 : a / 4 * 4 + (a % 4 * 16 + b / 16) / 16 = a := by omega
    have k2 : (a % 4 * 16 + b / 16) % 16 * 16 + (b % 16 * 4 + c / 64) / 4 = b := by omega
    have k3 : (b % 16 * 4 + c / 64) % 4 * 64 + c % 64 = c := by omega
    simp only [b64e, b64d, h1, h2, h3, h4, ih, k1, k2, k3]

theorem b64e_lt_128_std :
    ∀ bs : List Nat, (∀ b ∈ bs, b < 256) → ∀ x ∈ b64e 43 47 bs, x < 128
  | [], _ => by simp [b64e]
  | [a], h => by
    have ha : a < 256 := h a (by simp)
    intro x hx
    simp only [b64e, List.mem_cons, List.not_mem_nil, or_false] at hx
    rcases hx with rfl | rfl
    · exact b64chr_lt_128_std (a / 4) (by omega)
    · exact b64chr_lt_128_std (a % 4 * 16) (by omega)
  | [a, b], h => by
    have ha : a < 256 := h a (by simp)
    have hb : b < 256 := h b (by simp)
    intro x hx
    simp only [b64e, List.mem_cons, List.not_mem_nil, or_false] at hx
    rcases hx with rfl | rfl | rfl
    · exact b64chr_lt_128_std (a / 4) (by omega)
    · exact b64chr_lt_128_std (a % 4 * 16 + b / 16) (by omega)
    · exact b64chr_lt_128_std (b % 16 * 4) (by omega)
  | a :: b :: c :: rest, h => by
    have ha : a < 256 := h a (by simp)
    have hb : b < 256 := h b (by simp)
    have hc : c < 256 := h c (by simp)
    have hrest : ∀ x ∈ rest, x < 256 := fun x hx => h x (by simp [hx])
    have ih := b64e_lt_128_std rest hrest
    intro x hx
    simp only [b64e, List.mem_cons] at hx
    rcases hx with rfl | rfl | rfl | rfl | hx
    · exact b64chr_lt_128_std (a / 4) (by omega)
    · exact b64chr_lt_128_std (a % 4 * 16 + b / 16) (by omega)
    · exact b64chr_lt_128_std (b % 16 * 4 + c / 64) (by omega)
    · exact b64chr_lt_128_std (c % 64) (by omega)
    · exact ih x hx

theorem length_le_length_b64e (c62 c63 : Nat) :
    ∀ bs : List Nat, bs.length ≤ (b64e c62 c63 bs).length
  | [] => by simp [b64e]
  | [_] => by simp [b64e]
  | [_, _] => by simp [b64e]
  | a :: b :: c :: rest => by
    have ih := length_le_length_b64e c62 c63 rest
    simp only [b64e, List.length_cons]
    omega

/-- Go strings built from raw bytes (all the bytes the codec turns into strings
are ASCII, so the byte-to-character identification is faithful). -/
def stringOfBytes (bs : List Nat) : String := String.mk (bs.map Char.ofNat)

def bytesOfString (s : String) : List Nat := s.data.map Char.toNat

theorem char_toNat_ofNat : ∀ n : Fin 128, (Char.ofNat n.val).toNat = n.val := by decide

theorem bytesOfString_stringOfBytes (bs : List Nat) (h : ∀ b ∈ bs, b < 128) :
    bytesOfString (stringOfBytes bs) = bs := by
  induction bs with
  | nil => rfl
  | cons b rest ih =>
    have hb : b < 128 := h b (by simp)
    have hrest : ∀ x ∈ rest, x < 128 := fun x hx => h x (by simp [hx])
    simp only [stringOfBytes, bytesOfString, List.map_cons] at *
    rw [char_toNat_ofNat ⟨b, hb⟩]
    exact congrArg (b :: ·) (ih hrest)

/-! ## AEAD model and the AES transformer (`opaquetoken` transformer source)

`crypto/cipher`'s AES-GCM is an external library; the transformer only relies
on it being an AEAD with a 12-byte nonce and a 16-byte tag whose `Open` inverts
`Seal`.  It is modeled executably: `cmSeal` shifts each plaintext byte by a
constant (a stand-in keystream) and appends a 16-byte checksum tag over nonce
and ciphertext; `cmOpen` checks the tag and undoes the shift.  The transformer
code itself (base64 handling, nonce layout, the length guard) is embedded
byte for byte from the repository source. -/

def gcmNonceSize : Nat := 12

def cmEncByte (b : Nat) : Nat := (b + 7) % 256

def cmDecByte (b : Nat) : Nat := (b + 249) % 256

/-- The model AEAD's 16-byte authentication tag over nonce and ciphertext. -/
def cmTag (nonce ct : List Nat) : List Nat :=
  List.replicate 16 ((nonce.sum + ct.sum) % 256)

/-- Model of `gcm.Seal(nil, nonce, plaintext, nil)`: ciphertext then tag. -/
def cmSeal (nonce pt : List Nat) : List Nat :=
  pt.map cmEncByte ++ cmTag nonce (pt.map cmEncByte)

/-- Model of `gcm.Open(nil, nonce, data, nil)`: authentication failure unless
the trailing 16 bytes are the tag of the rest. -/
def cmOpen (nonce data : List Nat) : Except String (List Nat) :=
  if data.length < 16 then .error "cipher: message authentication failed"
  else
    let ct := data.take (data.length - 16)
    let tag := data.drop (data.length - 16)
    if tag = cmTag nonce ct then .ok (ct.map cmDecByte)
    else .error "cipher: message authentication failed"

theorem cmOpen_cmSeal (nonce pt : List Nat) (h : ∀ b ∈ pt, b < 256) :
    cmOpen nonce (cmSeal nonce pt) = .ok pt := by
  have hlen : (cmSeal nonce pt).length = (pt.map cmEncByte).length + 16 := by
    simp [cmSeal, cmTag]
  have hnot : ¬(cmSeal nonce pt).length < 16 := by omega
  have hsub : (cmSeal nonce pt).length - 16 = (pt.map cmEncByte).length := by omega
  have htake : (cmSeal nonce pt).take ((cmSeal nonce pt).length - 16) = pt.map cmEncByte := by
    rw [hsub]
    exact List.take_left _ _
  have hdrop : (cmSeal nonce pt).drop ((cmSeal nonce pt).length - 16)
      = cmTag nonce (pt.map cmEncByte) := by
    rw [hsub]
    exact List.drop_left _ _
  simp only [cmOpen, hnot, if_false, htake, hdrop]
  rw [if_true]
  congr 1
  rw [List.map_map]
  have : ∀ b ∈ pt, (cmDecByte ∘ cmEncByte) b = id b := by
    intro b hb
    have := h b hb
    simp only [Function.comp_apply, cmDecByte, cmEncByte, id]
    omega
  rw [List.map_congr_left this, List.map_id]

/-- Result of a Go function that can also panic at runtime. -/
inductive DRes (α : Type) where
  | ok (a : α)
  | err (msg : String)
  | panicked
deriving DecidableEq, Repr

/-- Embedding of `aesTransformer.Encode`: `gcm.Seal(nonce, nonce, []byte(s), nil)`
prepends the nonce to ciphertext-plus-tag, and the result is RawURLEncoding
base64.  The fresh random nonce drawn from `crypto/rand` is passed explicitly. -/
def aesTransformerEncode (nonce pt : List Nat) : List Nat :=
  b64e 45 95 (nonce ++ cmSeal nonce pt)

/-- Embedding of `aesTransformer.Decode`: RawURLEncoding base64 decode, then
the length guard — which the Go source performs on `len(s)`, the base64 text,
not on `len(data)`, the decoded bytes — then `data[nonceSize:]`/`data[:nonceSize]`
slicing (a Go runtime panic when `nonceSize > len(data)`, reported here as
`DRes.panicked`), then `gcm.Open`. -/
def aesTransformerDecode (s : List Nat) : DRes (List Nat) :=
  match b64d 45 95 s with
  | .error e => .err e
  | .ok data =>
    if s.length < gcmNonceSize then
      .err "invalid token; expected size of at least nonce size"
    else if data.length < gcmNonceSize then
      .panicked
    else
      match cmOpen (data.take gcmNonceSize) (data.drop gcmNonceSize) with
      | .error e => .err e
      | .ok pt => .ok pt

/-! ## The Tokenizer (`ddb/opaquetoken/token.go`) -/

/-- A last-evaluated key / exclusive start key. -/
abbrev Key := AVMap

/-- The Go `map[string]map[string]string` intermediate representation. -/
abbrev TokenItem := List (String × List (String × String))

/-- The three DynamoDB kinds that may be partition or sort keys. -/
def keyCapable : AttributeValue → Bool
  | .S _ => true
  | .N _ => true
  | .B _ => true
  | _ => false

/-- Binary attribute payloads are Go bytes, hence below 256. -/
def AttributeValue.wfBytes : AttributeValue → Bool
  | .B bs => bs.all (· < 256)
  | _ => true

/-- The per-attribute loop of `Tokenizer.Encode` (`token.go` lines 29-52): S and
N values are stored under their type tag; B values are RawStdEncoding base64;
any other member kind is an error. -/
def encodeEntries : Key → Except String TokenItem
  | [] => .ok []
  | (k, v) :: rest =>
    match v with
    | .S s =>
      match encodeEntries rest with
      | .ok item => .ok ((k, [("S", s)]) :: item)
      | .error e => .error e
    | .N s =>
      match encodeEntries rest with
      | .ok item => .ok ((k, [("N", s)]) :: item)
      | .error e => .error e
    | .B bs =>
      match encodeEntries rest with
      | .ok item => .ok ((k, [("B", stringOfBytes (b64e 43 47 bs))]) :: item)
      | .error e => .error e
    | _ => .error ("key named " ++ k ++ " has unknown type")

/-- `Tokenizer.Encode` up to JSON marshaling (`token.go` lines 22-57): the
attribute-count guard, then the per-attribute loop. -/
def encodeItem (key : Key) : Except String TokenItem :=
  if key.length = 1 ∨ key.length = 2 then encodeEntries key
  else .error "invalid number of attributes in key: expected 1 or 2"

/-- The token document `json.Marshal` receives: each attribute becomes a
one-entry object keyed by its type tag. -/
def itemToDoc (item : TokenItem) : JDoc :=
  .obj (item.map fun e => (e.1, JVal.obj (e.2.map fun p => (p.1, JPrim.jstr p.2))))

/-- The typed-decoding half of `json.Unmarshal(token, &item)` for
`item : map[string]map[string]string`: inner values must be strings. -/
def innerFields : List (String × JPrim) → Except String (List (String × String))
  | [] => .ok []
  | (t, .jstr s) :: rest =>
    match innerFields rest with
    | .ok fs => .ok ((t, s) :: fs)
    | .error e => .error e
  | (_, .jnum _) :: _ => .error "unmarshal token as JSON error"

/-- See `innerFields`: outer values must be objects of strings. -/
def docFields : List (String × JVal) → Except String TokenItem
  | [] => .ok []
  | (k, .obj inner) :: rest =>
    match innerFields inner with
    | .error e => .error e
    | .ok inner2 =>
      match docFields rest with
      | .ok fs => .ok ((k, inner2) :: fs)
      | .error e => .error e
  | (_, .prim _) :: _ => .error "unmarshal token as JSON error"

/-- See `innerFields`: the document must be an object. -/
def docToItem : JDoc → Except String TokenItem
  | .prim _ => .error "unmarshal token as JSON error"
  | .obj fields => docFields fields

/-- The per-entry loop of `Tokenizer.Decode` (`token.go` lines 86-113): each
inner map must have exactly one entry; the `S`, `N`, `B` tags are tried in that
order (`B` values base64-decoded, a decode failure is an error); an entry whose
tag is none of the three falls off the end of the loop body without being added
to the key and without an error. -/
def decodeEntries : TokenItem → Key → Except String Key
  | [], acc => .ok acc
  | (k, v) :: rest, acc =>
    if v.length ≠ 1 then
      .error ("invalid number of attributes in key named " ++ k)
    else
      match lookupEntry v "S" with
      | some s => decodeEntries rest (setEntry acc k (.S s))
      | none =>
        match lookupEntry v "N" with
        | some s => decodeEntries rest (setEntry acc k (.N s))
        | none =>
          match lookupEntry v "B" with
          | some s =>
            match b64d 43 47 (bytesOfString s) with
            | .error _ => .error ("decode attribute named " ++ k ++ " as B error")
            | .ok bs => decodeEntries rest (setEntry acc k (.B bs))
          | none => decodeEntries rest acc

/-- `Tokenizer.Decode` after JSON unmarshaling (`token.go` lines 79-115): the
attribute-count guard, then the per-entry loop over an initially empty key. -/
def decodeItem (item : TokenItem) : Except String Key :=
  if item.length = 1 ∨ item.length = 2 then decodeEntries item []
  else .error "invalid number of attributes in key: expected 1 or 2"

/-- `Tokenizer.Encode` with no Transformer configured: the token is the JSON
serialization itself. -/
def tokenizerEncodePlain (key : Key) : Except String (List Nat) :=
  match encodeItem key with
  | .error e => .error e
  | .ok item => .ok (serDoc (itemToDoc item))

/-- `Tokenizer.Encode` with the AES transformer configured. -/
def tokenizerEncodeAes (nonce : List Nat) (key : Key) : Except String (List Nat) :=
  match encodeItem key with
  | .error e => .error e
  | .ok item => .ok (aesTransformerEncode nonce (serDoc (itemToDoc item)))

/-- The decode pipeline after the optional transformer: `json.Unmarshal`
(parse, then typed decoding), then the entry loop. -/
def tokenizerDecodeCore (bs : List Nat) : Except String Key :=
  match jsonUnmarshal bs with
  | .error e => .error e
  | .ok d =>
    match docToItem d with
    | .error e => .error e
    | .ok item => decodeItem item

/-- `Tokenizer.Decode` with no Transformer configured. -/
def tokenizerDecodePlain (bs : List Nat) : Except String Key :=
  tokenizerDecodeCore bs

/-- `Tokenizer.Decode` with the AES transformer configured; a transformer panic
aborts the whole call. -/
def tokenizerDecodeAes (s : List Nat) : DRes Key :=
  match aesTransformerDecode s with
  | .err e => .err e
  | .panicked => .panicked
  | .ok pt =>
    match tokenizerDecodeCore pt with
    | .error e => .err e
    | .ok k => .ok k

/-! ## Codec round-trip support lemmas -/

theorem lookupEntry_eq_none_of_not_mem {α : Type} (m : List (String × α)) (k : String)
    (h : k ∉ m.map Prod.fst) : lookupEntry m k = none := by
  induction m with
  | nil => rfl
  | cons e rest ih =>
    simp only [List.map_cons, List.mem_cons] at h
    push_neg at h
    simp only [lookupEntry, Ne.symm h.1, if_false]
    exact ih h.2

theorem setEntry_eq_append {α : Type} (m : List (String × α)) (k : String) (v : α)
    (h : lookupEntry m k = none) : setEntry m k v = m ++ [(k, v)] := by
  induction m with
  | nil => rfl
  | cons e rest ih =>
    obtain ⟨k', v'⟩ := e
    simp only [lookupEntry] at h
    by_cases hk : k' = k
    · simp [hk] at h
    · simp only [setEntry, hk, if_false, List.cons_append]
      simp only [hk, if_false] at h
      exact congrArg _ (ih h)

/-- The token item `Tokenizer.Encode` builds for a key of key-capable
attributes. -/
def attrEntry (v : AttributeValue) : List (String × String) :=
  match v with
  | .S s => [("S", s)]
  | .N s => [("N", s)]
  | .B bs => [("B", stringOfBytes (b64e 43 47 bs))]
  | _ => []

def itemOfKey (key : Key) : TokenItem := key.map fun e => (e.1, attrEntry e.2)

theorem encodeEntries_eq : ∀ key : Key, (∀ e ∈ key, keyCapable e.2) →
    encodeEntries key = .ok (itemOfKey key)
  | [], _ => rfl
  | (k, v) :: rest, h => by
    have hrest : ∀ e ∈ rest, keyCapable e.2 := fun e he => h e (by simp [he])
    have ih := encodeEntries_eq rest hrest
    have hv : keyCapable v := h (k, v) (by simp)
    cases v with
    | S s => simp [encodeEntries, ih, itemOfKey, attrEntry]
    | N s => simp [encodeEntries, ih, itemOfKey, attrEntry]
    | B bs => simp [encodeEntries, ih, itemOfKey, attrEntry]
    | BOOL b => simp [keyCapable] at hv
    | NULL => simp [keyCapable] at hv

theorem attrEntry_length (v : AttributeValue) (h : keyCapable v) : (attrEntry v).length = 1 := by
  cases v <;> simp_all [attrEntry, keyCapable]

theorem decodeEntries_cons_S (k s : String) (rest : TokenItem) (acc : Key) :
    decodeEntries ((k, [("S", s)]) :: rest) acc
      = decodeEntries rest (setEntry acc k (.S s)) := by
  simp [decodeEntries, lookupEntry]

theorem decodeEntries_cons_N (k s : String) (rest : TokenItem) (acc : Key) :
    decodeEntries ((k, [("N", s)]) :: rest) acc
      = decodeEntries rest (setEntry acc k (.N s)) := by
  have hNS : ("N" : String) ≠ "S" := by decide
  simp [decodeEntries, lookupEntry, hNS]

theorem decodeEntries_cons_B (k s : String) (rest : TokenItem) (acc : Key) :
    decodeEntries ((k, [("B", s)]) :: rest) acc
      = match b64d 43 47 (bytesOfString s) with
        | .error _ => .error ("decode attribute named " ++ k ++ " as B error")
        | .ok bs => decodeEntries rest (setEntry acc k (.B bs)) := by
  have hBS : ("B" : String) ≠ "S" := by decide
  have hBN : ("B" : String) ≠ "N" := by decide
  simp [decodeEntries, lookupEntry, hBS, hBN]

theorem decodeEntries_cons_other (k t s : String) (rest : TokenItem) (acc : Key)
    (h1 : t ≠ "S") (h2 : t ≠ "N") (h3 : t ≠ "B") :
    decodeEntries ((k, [(t, s)]) :: rest) acc = decodeEntries rest acc := by
  simp [decodeEntries, lookupEntry, h1, h2, h3]

theorem decodeEntries_itemOfKey : ∀ (key acc : Key),
    (∀ e ∈ key, keyCapable e.2) → (∀ e ∈ key, e.2.wfBytes) →
    (acc.map Prod.fst ++ key.map Prod.fst).Nodup →
    decodeEntries (itemOfKey key) acc = .ok (acc ++ key)
  | [], acc, _, _, _ => by simp [itemOfKey, decodeEntries]
  | (k, v) :: rest, acc, hcap, hwf, hnd => by
    have hrestcap : ∀ e ∈ rest, keyCapable e.2 := fun e he => hcap e (by simp [he])
    have hrestwf : ∀ e ∈ rest, e.2.wfBytes := fun e he => hwf e (by simp [he])
    have hv : keyCapable v := hcap (k, v) (by simp)
    have hk : k ∉ acc.map Prod.fst := by
      intro hmem
      have hd := (List.nodup_append.mp (by simpa using hnd)).2.2
      exact hd hmem (by simp)
    have hacc : lookupEntry acc k = none := lookupEntry_eq_none_of_not_mem acc k hk
    have hnd2 : ∀ w : AttributeValue,
        ((acc ++ [(k, w)]).map Prod.fst ++ rest.map Prod.fst).Nodup := by
      intro w
      simpa [List.append_assoc] using hnd
    cases v with
    | S s =>
      have ih := decodeEntries_itemOfKey rest (acc ++ [(k, .S s)]) hrestcap hrestwf (hnd2 _)
      have step : decodeEntries (itemOfKey ((k, AttributeValue.S s) :: rest)) acc
          = decodeEntries (itemOfKey rest) (setEntry acc k (.S s)) := by
        simp only [itemOfKey, List.map_cons, attrEntry]
        exact decodeEntries_cons_S k s _ acc
      rw [step, setEntry_eq_append acc k _ hacc, ih]
      simp [List.append_assoc]
    | N s =>
      have ih := decodeEntries_itemOfKey rest (acc ++ [(k, .N s)]) hrestcap hrestwf (hnd2 _)
      have step : decodeEntries (itemOfKey ((k, AttributeValue.N s) :: rest)) acc
          = decodeEntries (itemOfKey rest) (setEntry acc k (.N s)) := by
        simp only [itemOfKey, List.map_cons, attrEntry]
        exact decodeEntries_cons_N k s _ acc
      rw [step, setEntry_eq_append acc k _ hacc, ih]
      simp [List.append_assoc]
    | B bs =>
      have hbs : ∀ b ∈ bs, b < 256 := by
        have := hwf (k, .B bs) (by simp)
        simpa [AttributeValue.wfBytes, List.all_eq_true, decide_eq_true_eq] using this
      have hb64 : bytesOfString (stringOfBytes (b64e 43 47 bs)) = b64e 43 47 bs :=
        bytesOfString_stringOfBytes _ (b64e_lt_128_std bs hbs)
      have hrt : b64d 43 47 (b64e 43 47 bs) = .ok bs := b64d_b64e 43 47 b64idx_b64chr_std bs hbs
      have ih := decodeEntries_itemOfKey rest (acc ++ [(k, .B bs)]) hrestcap hrestwf (hnd2 _)
      have step : decodeEntries (itemOfKey ((k, AttributeValue.B bs) :: rest)) acc
          = decodeEntries (itemOfKey rest) (setEntry acc k (.B bs)) := by
        simp only [itemOfKey, List.map_cons, attrEntry]
        rw [decodeEntries_cons_B, hb64, hrt]
      rw [step, setEntry_eq_append acc k _ hacc, ih]
      simp [List.append_assoc]
    | BOOL b => simp [keyCapable] at hv
    | NULL => simp [keyCapable] at hv

theorem innerFields_map (inner : List (String × String)) :
    innerFields (inner.map fun p => (p.1, JPrim.jstr p.2)) = .ok inner := by
  induction inner with
  | nil => rfl
  | cons p rest ih =>
    obtain ⟨t, s⟩ := p
    simp [innerFields, ih]

theorem docFields_map (item : TokenItem) :
    docFields (item.map fun e => (e.1, JVal.obj (e.2.map fun p => (p.1, JPrim.jstr p.2))))
      = .ok item := by
  induction item with
  | nil => rfl
  | cons e rest ih =>
    obtain ⟨k, inner⟩ := e
    simp [docFields, innerFields_map, ih]

theorem docToItem_itemToDoc (item : TokenItem) : docToItem (itemToDoc item) = .ok item := by
  simp [itemToDoc, docToItem, docFields_map]

theorem serInt_wf (n : Int) : ∀ b ∈ serInt n, b < 256 := by
  intro b hb
  simp only [serInt] at hb
  by_cases h : 0 ≤ n
  · simp only [h, if_true, List.mem_cons] at hb
    rcases hb with rfl | hb
    · omega
    · exact leb_wf _ b hb
  · simp only [h, if_false, List.mem_cons] at hb
    rcases hb with rfl | hb
    · omega
    · exact leb_wf _ b hb

theorem serPrim_wf (p : JPrim) : ∀ b ∈ serPrim p, b < 256 := by
  intro b hb
  cases p with
  | jstr s =>
    simp only [serPrim, List.mem_cons] at hb
    rcases hb with rfl | hb
    · omega
    · exact serStr_wf _ b hb
  | jnum n =>
    simp only [serPrim, List.mem_cons] at hb
    rcases hb with rfl | hb
    · omega
    · exact serInt_wf _ b hb

theorem serPFields_wf : ∀ fs : List (String × JPrim), ∀ b ∈ serPFields fs, b < 256
  | [] => by simp [serPFields]
  | (k, p) :: rest => by
    intro b hb
    simp only [serPFields, List.mem_append] at hb
    rcases hb with (hb | hb) | hb
    · exact serStr_wf _ b hb
    · exact serPrim_wf _ b hb
    · exact serPFields_wf rest b hb

theorem serVal_wf (v : JVal) : ∀ b ∈ serVal v, b < 256 := by
  intro b hb
  cases v with
  | prim p =>
    simp only [serVal, List.mem_cons] at hb
    rcases hb with rfl | hb
    · omega
    · exact serPrim_wf _ b hb
  | obj fs =>
    simp only [serVal, List.mem_cons, List.mem_append] at hb
    rcases hb with rfl | hb | hb
    · omega
    · exact leb_wf _ b hb
    · exact serPFields_wf _ b hb

theorem serVFields_wf : ∀ fs : List (String × JVal), ∀ b ∈ serVFields fs, b < 256
  | [] => by simp [serVFields]
  | (k, v) :: rest => by
    intro b hb
    simp only [serVFields, List.mem_append] at hb
    rcases hb with (hb | hb) | hb
    · exact serStr_wf _ b hb
    · exact serVal_wf _ b hb
    · exact serVFields_wf rest b hb

theorem serDoc_wf (d : JDoc) : ∀ b ∈ serDoc d, b < 256 := by
  intro b hb
  cases d with
  | prim p =>
    simp only [serDoc, List.mem_cons] at hb
    rcases hb with rfl | hb
    · omega
    · exact serPrim_wf _ b hb
  | obj fs =>
    simp only [serDoc, List.mem_cons, List.mem_append] at hb
    rcases hb with rfl | hb | hb
    · omega
    · exact leb_wf _ b hb
    · exact serVFields_wf _ b hb

theorem cmSeal_wf (nonce pt : List Nat) : ∀ b ∈ cmSeal nonce pt, b < 256 := by
  intro b hb
  simp only [cmSeal, cmTag, List.mem_append, List.mem_map, List.mem_replicate] at hb
  rcases hb with ⟨x, _, rfl⟩ | ⟨_, rfl⟩
  · simp only [cmEncByte]
    omega
  · omega

/-! ## Claims C4-C7 -/

/-- C4: for every key of 1 or 2 attributes whose values are all of S, N or B
kind (with Go-byte binary payloads and map-distinct attribute names),
`Decode(Encode(k))` succeeds and returns `k`, both in plaintext mode and with
the AES transformer configured (for any 12-byte nonce drawn by the
encoder). -/
theorem c4_roundtrip (key : Key) (nonce : List Nat)
    (hlen : key.length = 1 ∨ key.length = 2)
    (hcap : ∀ e ∈ key, keyCapable e.2)
    (hwf : ∀ e ∈ key, e.2.wfBytes)
    (hnodup : (key.map Prod.fst).Nodup)
    (hnonce : nonce.length = gcmNonceSize)
    (hnwf : ∀ b ∈ nonce, b < 256) :
    (∃ t, tokenizerEncodePlain key = .ok t ∧ tokenizerDecodePlain t = .ok key)
    ∧ ∃ t, tokenizerEncodeAes nonce key = .ok t ∧ tokenizerDecodeAes t = .ok key := by
  have hitem : encodeItem key = .ok (itemOfKey key) := by
    simp [encodeItem, hlen, encodeEntries_eq key hcap]
  have hlen2 : (itemOfKey key).length = key.length := by simp [itemOfKey]
  have hdec : decodeItem (itemOfKey key) = .ok key := by
    have hde := decodeEntries_itemOfKey key [] hcap hwf (by simpa using hnodup)
    have hcond : (itemOfKey key).length = 1 ∨ (itemOfKey key).length = 2 := by
      rw [hlen2]
      exact hlen
    simp only [decodeItem]
    rw [if_pos hcond]
    simpa using hde
  have hcore : tokenizerDecodeCore (serDoc (itemToDoc (itemOfKey key))) = .ok key := by
    simp [tokenizerDecodeCore, jsonUnmarshal_serDoc, docToItem_itemToDoc, hdec]
  constructor
  · exact ⟨_, by simp [tokenizerEncodePlain, hitem], hcore⟩
  · have hbswf : ∀ b ∈ serDoc (itemToDoc (itemOfKey key)), b < 256 := serDoc_wf _
    set bs := serDoc (itemToDoc (itemOfKey key)) with hbs
    have hdatawf : ∀ b ∈ nonce ++ cmSeal nonce bs, b < 256 := by
      intro b hb
      rcases List.mem_append.mp hb with hb | hb
      · exact hnwf b hb
      · exact cmSeal_wf nonce bs b hb
    have hb64rt : b64d 45 95 (b64e 45 95 (nonce ++ cmSeal nonce bs))
        = .ok (nonce ++ cmSeal nonce bs) :=
      b64d_b64e 45 95 b64idx_b64chr_url _ hdatawf
    have h2 : (nonce ++ cmSeal nonce bs).length = bs.length + 28 := by
      simp only [List.length_append, cmSeal, cmTag, List.length_map, List.length_replicate,
        hnonce, gcmNonceSize]
      omega
    have hslen : ¬(b64e 45 95 (nonce ++ cmSeal nonce bs)).length < gcmNonceSize := by
      have h1 := length_le_length_b64e 45 95 (nonce ++ cmSeal nonce bs)
      simp only [gcmNonceSize]
      omega
    have hdlen : ¬(nonce ++ cmSeal nonce bs).length < gcmNonceSize := by
      simp only [gcmNonceSize]
      omega
    have htake : (nonce ++ cmSeal nonce bs).take gcmNonceSize = nonce := by
      rw [← hnonce]
      exact List.take_left _ _
    have hdrop : (nonce ++ cmSeal nonce bs).drop gcmNonceSize = cmSeal nonce bs := by
      rw [← hnonce]
      exact List.drop_left _ _
    have hdec2 : aesTransformerDecode (b64e 45 95 (nonce ++ cmSeal nonce bs)) = .ok bs := by
      simp only [aesTransformerDecode, hb64rt, hslen, if_false, hdlen, htake, hdrop,
        cmOpen_cmSeal nonce bs hbswf]
    refine ⟨aesTransformerEncode nonce bs, by simp [tokenizerEncodeAes, hitem, hbs], ?_⟩
    simp only [aesTransformerEncode]
    simp [tokenizerDecodeAes, hdec2, hcore]

/-- Witness for C4 at a concrete key and nonce. -/
theorem c4_roundtrip_witness :
    (∃ t, tokenizerEncodePlain [("id", .S "h")] = .ok t
      ∧ tokenizerDecodePlain t = .ok [("id", .S "h")])
    ∧ ∃ t, tokenizerEncodeAes (List.replicate 12 0) [("id", .S "h")] = .ok t
      ∧ tokenizerDecodeAes t = .ok [("id", .S "h")] :=
  c4_roundtrip [("id", .S "h")] (List.replicate 12 0) (by decide) (by decide) (by decide)
    (by decide) (by decide) (by decide)

theorem encodeEntries_error_of_bad (key : Key) (h : ∃ e ∈ key, ¬keyCapable e.2) :
    ∃ msg, encodeEntries key = .error msg := by
  induction key with
  | nil => simp at h
  | cons e rest ih =>
    obtain ⟨k, v⟩ := e
    by_cases hv : keyCapable v
    · have hrest : ∃ e ∈ rest, ¬keyCapable e.2 := by
        rcases h with ⟨e2, he2, hbad⟩
        rcases List.mem_cons.mp he2 with rfl | hm
        · exact absurd hv hbad
        · exact ⟨e2, hm, hbad⟩
      obtain ⟨msg, hmsg⟩ := ih hrest
      cases v with
      | S s => exact ⟨msg, by simp [encodeEntries, hmsg]⟩
      | N s => exact ⟨msg, by simp [encodeEntries, hmsg]⟩
      | B bs => exact ⟨msg, by simp [encodeEntries, hmsg]⟩
      | BOOL b => simp [keyCapable] at hv
      | NULL => simp [keyCapable] at hv
    · cases v with
      | S s => simp [keyCapable] at hv
      | N s => simp [keyCapable] at hv
      | B bs => simp [keyCapable] at hv
      | BOOL b =>
        exact ⟨"key named " ++ k ++ " has unknown type", by simp [encodeEntries]⟩
      | NULL =>
        exact ⟨"key named " ++ k ++ " has unknown type", by simp [encodeEntries]⟩

/-- C5: `Tokenizer.Encode` (in both modes) errors on every key with 0 or more
than 2 attributes and on every key containing a non-key-capable attribute
value, and succeeds on every key of 1 or 2 attributes whose values are all of
S, N or B kind. -/
theorem c5_encode_error_conditions (key : Key) (nonce : List Nat) :
    (¬(key.length = 1 ∨ key.length = 2) →
      tokenizerEncodePlain key = .error "invalid number of attributes in key: expected 1 or 2"
      ∧ tokenizerEncodeAes nonce key
        = .error "invalid number of attributes in key: expected 1 or 2")
    ∧ ((∃ e ∈ key, ¬keyCapable e.2) →
      (∃ msg, tokenizerEncodePlain key = .error msg)
      ∧ ∃ msg, tokenizerEncodeAes nonce key = .error msg)
    ∧ ((key.length = 1 ∨ key.length = 2) → (∀ e ∈ key, keyCapable e.2) →
      (∃ t, tokenizerEncodePlain key = .ok t) ∧ ∃ t, tokenizerEncodeAes nonce key = .ok t) := by
  refine ⟨?_, ?_, ?_⟩
  · intro h
    have he : encodeItem key = .error "invalid number of attributes in key: expected 1 or 2" := by
      simp [encodeItem, h]
    exact ⟨by simp [tokenizerEncodePlain, he], by simp [tokenizerEncodeAes, he]⟩
  · intro h
    by_cases hl : key.length = 1 ∨ key.length = 2
    · obtain ⟨msg, hmsg⟩ := encodeEntries_error_of_bad key h
      have he : encodeItem key = .error msg := by simp [encodeItem, hl, hmsg]
      exact ⟨⟨msg, by simp [tokenizerEncodePlain, he]⟩,
        ⟨msg, by simp [tokenizerEncodeAes, he]⟩⟩
    · have he : encodeItem key
          = .error "invalid number of attributes in key: expected 1 or 2" := by
        simp [encodeItem, hl]
      exact ⟨⟨"invalid number of attributes in key: expected 1 or 2",
          by simp [tokenizerEncodePlain, he]⟩,
        ⟨"invalid number of attributes in key: expected 1 or 2",
          by simp [tokenizerEncodeAes, he]⟩⟩
  · intro hl hcap
    have he : encodeItem key = .ok (itemOfKey key) := by
      simp [encodeItem, hl, encodeEntries_eq key hcap]
    exact ⟨⟨serDoc (itemToDoc (itemOfKey key)), by simp [tokenizerEncodePlain, he]⟩,
      ⟨aesTransformerEncode nonce (serDoc (itemToDoc (itemOfKey key))),
        by simp [tokenizerEncodeAes, he]⟩⟩

/-- Witness for C5 at concrete keys: an empty key, a key with a BOOL value, and
a valid singleton key. -/
theorem c5_encode_error_conditions_witness :
    tokenizerEncodePlain [] = .error "invalid number of attributes in key: expected 1 or 2"
    ∧ (∃ msg, tokenizerEncodePlain [("x", .BOOL true)] = .error msg)
    ∧ ∃ t, tokenizerEncodePlain [("a", .N "1")] = .ok t :=
  ⟨((c5_encode_error_conditions [] []).1 (by decide)).1,
   ((c5_encode_error_conditions [("x", .BOOL true)] []).2.1 (by decide)).1,
   ((c5_encode_error_conditions [("a", .N "1")] []).2.2 (by decide) (by decide)).1⟩

/-- C6 counterexample: the claim says Decode reports an error whenever the
token contains an attribute entry whose type tag is not S, N or B, and never
returns a smaller key.  But decoding the well-formed one-attribute token
`{"k":{"X":"v"}}` succeeds with the empty key: the unsupported entry is
silently dropped. -/
theorem c6_decode_drops_unknown_tag :
    tokenizerDecodePlain (serDoc (itemToDoc [("k", [("X", "v")])])) = .ok [] := by
  decide

/-- The amended claim's characterization of what Decode keeps from each entry:
S, N and B tags (B base64-decoded) survive; any other single tag is dropped. -/
def entryDecode (e : String × List (String × String)) : Option (String × AttributeValue) :=
  match lookupEntry e.2 "S" with
  | some s => some (e.1, .S s)
  | none =>
    match lookupEntry e.2 "N" with
    | some s => some (e.1, .N s)
    | none =>
      match lookupEntry e.2 "B" with
      | some s =>
        match b64d 43 47 (bytesOfString s) with
        | .ok bs => some (e.1, .B bs)
        | .error _ => none
      | none => none

/-- An entry whose B payload (if it is the one consulted) is valid base64. -/
def noBadB (inner : List (String × String)) : Bool :=
  match lookupEntry inner "S" with
  | some _ => true
  | none =>
    match lookupEntry inner "N" with
    | some _ => true
    | none =>
      match lookupEntry inner "B" with
      | some s =>
        match b64d 43 47 (bytesOfString s) with
        | .ok _ => true
        | .error _ => false
      | none => true

theorem decodeEntries_filterMap : ∀ (item : TokenItem) (acc : Key),
    (∀ e ∈ item, e.2.length = 1) → (∀ e ∈ item, noBadB e.2) →
    (acc.map Prod.fst ++ item.map Prod.fst).Nodup →
    decodeEntries item acc = .ok (acc ++ item.filterMap entryDecode)
  | [], acc, _, _, _ => by simp [decodeEntries]
  | (k, inner) :: rest, acc, hlen, hbad, hnd => by
    have hrestlen : ∀ e ∈ rest, e.2.length = 1 := fun e he => hlen e (by simp [he])
    have hrestbad : ∀ e ∈ rest, noBadB e.2 := fun e he => hbad e (by simp [he])
    have h1 : inner.length = 1 := hlen (k, inner) (by simp)
    obtain ⟨⟨t, s⟩, rfl⟩ := List.length_eq_one.mp h1
    have hk : k ∉ acc.map Prod.fst := by
      intro hmem
      have hd := (List.nodup_append.mp (by simpa using hnd)).2.2
      exact hd hmem (by simp)
    have hacc : lookupEntry acc k = none := lookupEntry_eq_none_of_not_mem acc k hk
    have hnd2 : ∀ w : AttributeValue,
        ((acc ++ [(k, w)]).map Prod.fst ++ rest.map Prod.fst).Nodup := by
      intro w
      simpa [List.append_assoc] using hnd
    by_cases ht1 : t = "S"
    · subst ht1
      have ih := decodeEntries_filterMap rest (acc ++ [(k, .S s)]) hrestlen hrestbad (hnd2 _)
      rw [decodeEntries_cons_S, setEntry_eq_append acc k _ hacc, ih]
      have hent : entryDecode (k, [("S", s)]) = some (k, .S s) := by
        simp [entryDecode, lookupEntry]
      simp [List.filterMap_cons, hent, List.append_assoc]
    · by_cases ht2 : t = "N"
      · subst ht2
        have ih := decodeEntries_filterMap rest (acc ++ [(k, .N s)]) hrestlen hrestbad (hnd2 _)
        rw [decodeEntries_cons_N, setEntry_eq_append acc k _ hacc, ih]
        have hent : entryDecode (k, [("N", s)]) = some (k, .N s) := by
          have hNS : ("N" : String) ≠ "S" := by decide
          simp [entryDecode, lookupEntry, hNS]
        simp [List.filterMap_cons, hent, List.append_assoc]
      · by_cases ht3 : t = "B"
        · subst ht3
          have hnb : noBadB [("B", s)] := hbad (k, [("B", s)]) (by simp)
          have hBS : ("B" : String) ≠ "S" := by decide
          have hBN : ("B" : String) ≠ "N" := by decide
          rw [decodeEntries_cons_B]
          cases hb : b64d 43 47 (bytesOfString s) with
          | error e =>
            exfalso
            simp [noBadB, lookupEntry, hBS, hBN, hb] at hnb
          | ok bs =>
            have ih := decodeEntries_filterMap rest (acc ++ [(k, .B bs)]) hrestlen hrestbad
              (hnd2 _)
            show decodeEntries rest (setEntry acc k (.B bs)) = _
            rw [setEntry_eq_append acc k _ hacc, ih]
            have hent : entryDecode (k, [("B", s)]) = some (k, .B bs) := by
              simp [entryDecode, lookupEntry, hBS, hBN, hb]
            simp [List.filterMap_cons, hent, List.append_assoc]
        · have hnd3 : (acc.map Prod.fst ++ rest.map Prod.fst).Nodup := by
            refine List.Nodup.sublist ?_ (by simpa using hnd)
            exact List.Sublist.append_left (List.sublist_cons_self _ _) _
          have ih := decodeEntries_filterMap rest acc hrestlen hrestbad hnd3
          rw [decodeEntries_cons_other k t s rest acc ht1 ht2 ht3, ih]
          have hent : entryDecode (k, [(t, s)]) = none := by
            simp [entryDecode, lookupEntry, ht1, ht2, ht3]
          simp [List.filterMap_cons, hent]

/-- C6 amended: Decode reports an error for unparsable tokens, for tokens that
are not objects of objects of strings, and for attribute counts outside [1,2];
but a single-tag entry whose tag is not S, N or B is silently dropped: Decode
returns (without error) exactly the S/N/B entries, a possibly smaller or even
empty key. -/
theorem c6_amended_decode_behavior :
    (∀ bs : List Nat, (∃ e, jsonUnmarshal bs = .error e) →
      ∃ e2, tokenizerDecodePlain bs = .error e2)
    ∧ (∀ d : JDoc, (∃ e, docToItem d = .error e) →
      ∃ e2, tokenizerDecodePlain (serDoc d) = .error e2)
    ∧ (∀ item : TokenItem, ¬(item.length = 1 ∨ item.length = 2) →
      tokenizerDecodePlain (serDoc (itemToDoc item))
        = .error "invalid number of attributes in key: expected 1 or 2")
    ∧ (∀ item : TokenItem, (item.length = 1 ∨ item.length = 2) →
      (∀ e ∈ item, e.2.length = 1) → (∀ e ∈ item, noBadB e.2) →
      (item.map Prod.fst).Nodup →
      tokenizerDecodePlain (serDoc (itemToDoc item)) = .ok (item.filterMap entryDecode)) := by
  refine ⟨?_, ?_, ?_, ?_⟩
  · intro bs ⟨e, he⟩
    exact ⟨e, by simp [tokenizerDecodePlain, tokenizerDecodeCore, he]⟩
  · intro d ⟨e, he⟩
    exact ⟨e, by simp [tokenizerDecodePlain, tokenizerDecodeCore, jsonUnmarshal_serDoc, he]⟩
  · intro item h
    simp [tokenizerDecodePlain, tokenizerDecodeCore, jsonUnmarshal_serDoc,
      docToItem_itemToDoc, decodeItem, h]
  · intro item hl hlen1 hbad hnd
    have hde := decodeEntries_filterMap item [] hlen1 hbad (by simpa using hnd)
    simp [tokenizerDecodePlain, tokenizerDecodeCore, jsonUnmarshal_serDoc,
      docToItem_itemToDoc, decodeItem, hl, hde]

/-- Witness for the amended C6 at concrete inputs: an unparsable token, an
empty token object, and a one-attribute S token. -/
theorem c6_amended_decode_behavior_witness :
    (∃ e2, tokenizerDecodePlain [99] = .error e2)
    ∧ tokenizerDecodePlain (serDoc (itemToDoc ([] : TokenItem)))
      = .error "invalid number of attributes in key: expected 1 or 2"
    ∧ tokenizerDecodePlain (serDoc (itemToDoc [("k", [("S", "v")])])) = .ok [("k", .S "v")] :=
  ⟨c6_amended_decode_behavior.1 [99] ⟨"unmarshal token as JSON error", by decide⟩,
   c6_amended_decode_behavior.2.2.1 [] (by decide),
   (c6_amended_decode_behavior.2.2.2 [("k", [("S", "v")])] (by decide) (by decide) (by decide)
      (by decide)).trans (by decide)⟩

/-- C7: the claim says the encrypted-mode Decode returns an error and never
panics on inputs shorter than one nonce after base64 decoding.  Refutation at a
concrete input: the 12-character RawURLEncoding token `AAAAAAAAAAAA` (twelve
bytes 65) decodes to 9 zero bytes — shorter than the 12-byte nonce — yet passes
the Go length guard, which compares the encoded length `len(s) = 12` against
the nonce size instead of the decoded length `len(data) = 9`; the subsequent
`data[nonceSize:]` slice then panics at runtime. -/
theorem c7_aes_decode_panics_on_short_token :
    aesTransformerDecode (List.replicate 12 65) = .panicked
    ∧ tokenizerDecodeAes (List.replicate 12 65) = .panicked := by
  decide

/-! ## Batch engine (`ddb/updatable.go` BatchLoad, batch save of the save module)

The DynamoDB service is an external collaborator: each batch call's response is
supplied by an oracle function from the call index and the request to the
delivered items and the optional unprocessed remainder (the presence of the
table key in `UnprocessedKeys`/`UnprocessedItems`).  The loops may never
terminate against a persistently-throttling store, so they are embedded with
explicit fuel: `fuelOut` marks a run cut short with work remaining, never a
behavior of the Go code. -/

/-- An item passed to `BatchLoad`: its table name and the key `GetKey`
returns. -/
structure LoadItem where
  tableName : String
  key : AVMap
deriving DecidableEq, Repr

/-- An item passed to batch save: its table name and the result of its
`Marshal`. -/
structure SaveItem where
  tableName : String
  marshal : Except String AVMap
deriving DecidableEq, Repr

/-- How a batch call ended. -/
inductive BatchOutcome where
  | done
  | fuelOut
  | storeError (msg : String)
  | tableMismatch (i : Nat) (got expected : String)
  | marshalError (i : Nat) (msg : String)
deriving DecidableEq, Repr

/-- The requests issued to the store, and how the call ended. -/
structure BatchRun where
  requests : List (List AVMap)
  outcome : BatchOutcome
deriving DecidableEq, Repr

/-- Embedding of the chunking loop of `BatchLoad` (`ddb/updatable.go` lines
276-298): at most 100 keys per `BatchGetItem`; the store's response items are
each passed to `itemCallback`, whose returned error the Go source discards
(collected here in a list the control flow never reads); the not-yet-sent
remainder and the store's unprocessed keys (empty when the table is absent
from `UnprocessedKeys`) go to `keysCallback`, whose result is the next work
list; the loop exits when the work list is empty. -/
def batchLoadLoop (store : Nat → List AVMap → Except String (List AVMap × Option (List AVMap)))
    (itemCallback : AVMap → Except String Unit)
    (keysCallback : List AVMap → List AVMap → List AVMap) :
    Nat → Nat → List AVMap → BatchRun × List (Except String Unit)
  | _, _, [] => (⟨[], .done⟩, [])
  | 0, _, _ :: _ => (⟨[], .fuelOut⟩, [])
  | fuel + 1, i, k :: ks =>
    let req := (k :: ks).take (min (k :: ks).length 100)
    match store i req with
    | .error e => (⟨[req], .storeError e⟩, [])
    | .ok (responses, unprocessed) =>
      let cbResults := responses.map itemCallback
      let next := keysCallback ((k :: ks).drop (min (k :: ks).length 100)) (unprocessed.getD [])
      let rec2 := batchLoadLoop store itemCallback keysCallback fuel (i + 1) next
      (⟨req :: rec2.1.requests, rec2.1.outcome⟩, cbResults ++ rec2.2)

/-- The key-collection and table-name check of `BatchLoad` (lines 262-274):
the first item fixes the table name; a later item with a different name aborts
with an error naming its index, before any store call. -/
def collectLoadKeys : List LoadItem → String → Nat →
    Except (Nat × String × String) (String × List AVMap)
  | [], t, _ => .ok (t, [])
  | it :: rest, t, i =>
    if t = "" then
      match collectLoadKeys rest it.tableName (i + 1) with
      | .ok (tn, ks) => .ok (tn, it.key :: ks)
      | .error e => .error e
    else if it.tableName = t then
      match collectLoadKeys rest t (i + 1) with
      | .ok (tn, ks) => .ok (tn, it.key :: ks)
      | .error e => .error e
    else .error (i, it.tableName, t)

/-- Embedding of `BatchLoad` (`ddb/updatable.go` lines 255-300). -/
def batchLoad (store : Nat → List AVMap → Except String (List AVMap × Option (List AVMap)))
    (items : List LoadItem) (itemCallback : AVMap → Except String Unit)
    (keysCallback : List AVMap → List AVMap → List AVMap) (fuel : Nat) :
    BatchRun × List (Except String Unit) :=
  match collectLoadKeys items "" 0 with
  | .error (i, got, expected) => (⟨[], .tableMismatch i got expected⟩, [])
  | .ok (_, keys) => batchLoadLoop store itemCallback keysCallback fuel 0 keys

/-- Embedding of the chunking loop of `BatchSave` (save module, lines 746-763
of the concatenated v2 table source): at most 25 write requests per
`BatchWriteItem`; remainder and unprocessed requests go to the callback. -/
def batchSaveLoop (store : Nat → List AVMap → Except String (Option (List AVMap)))
    (callback : List AVMap → List AVMap → List AVMap) :
    Nat → Nat → List AVMap → BatchRun
  | _, _, [] => ⟨[], .done⟩
  | 0, _, _ :: _ => ⟨[], .fuelOut⟩
  | fuel + 1, i, w :: ws =>
    let req := (w :: ws).take (min (w :: ws).length 25)
    match store i req with
    | .error e => ⟨[req], .storeError e⟩
    | .ok unprocessed =>
      let next := callback ((w :: ws).drop (min (w :: ws).length 25)) (unprocessed.getD [])
      let run := batchSaveLoop store callback fuel (i + 1) next
      ⟨req :: run.requests, run.outcome⟩

/-- The marshal-and-table-check loop of `BatchSave` (lines 725-744 of the
concatenated source): each item is marshaled first (a marshal error aborts),
then checked against the batch's table name. -/
def collectWriteRequests : List SaveItem → String → Nat →
    Except BatchOutcome (String × List AVMap)
  | [], t, _ => .ok (t, [])
  | it :: rest, t, i =>
    match it.marshal with
    | .error e => .error (.marshalError i e)
    | .ok item =>
      if t = "" then
        match collectWriteRequests rest it.tableName (i + 1) with
        | .ok (tn, ws) => .ok (tn, item :: ws)
        | .error e => .error e
      else if it.tableName = t then
        match collectWriteRequests rest t (i + 1) with
        | .ok (tn, ws) => .ok (tn, item :: ws)
        | .error e => .error e
      else .error (.tableMismatch i it.tableName t)

/-- Embedding of `BatchSave`. -/
def batchSave (store : Nat → List AVMap → Except String (Option (List AVMap)))
    (items : List SaveItem) (callback : List AVMap → List AVMap → List AVMap)
    (fuel : Nat) : BatchRun :=
  match collectWriteRequests items "" 0 with
  | .error out => ⟨[], out⟩
  | .ok (_, ws) => batchSaveLoop store callback fuel 0 ws

/-- `BatchLoadRetryUnprocessed` / `BatchSaveRetryUnprocessed`: the default
continuation policy appends unprocessed items to the remaining work list. -/
def batchRetryUnprocessed (remaining unprocessed : List AVMap) : List AVMap :=
  remaining ++ unprocessed

theorem batchLoadLoop_chunk_le
    (store : Nat → List AVMap → Except String (List AVMap × Option (List AVMap)))
    (cb : AVMap → Except String Unit) (policy : List AVMap → List AVMap → List AVMap) :
    ∀ (fuel i : Nat) (ks : List AVMap),
      ∀ req ∈ (batchLoadLoop store cb policy fuel i ks).1.requests, req.length ≤ 100
  | fuel, i, [] => by simp [batchLoadLoop]
  | 0, i, k :: ks => by simp [batchLoadLoop]
  | fuel + 1, i, k :: ks => by
    intro req hreq
    have hlen : ((k :: ks).take (min (k :: ks).length 100)).length ≤ 100 := by
      simp [List.length_take]
    simp only [batchLoadLoop] at hreq
    cases hs : store i ((k :: ks).take (min (k :: ks).length 100)) with
    | error e =>
      rw [hs] at hreq
      simp only [List.mem_singleton] at hreq
      exact hreq ▸ hlen
    | ok pr =>
      rw [hs] at hreq
      simp only [List.mem_cons] at hreq
      rcases hreq with rfl | hreq
      · exact hlen
      · exact batchLoadLoop_chunk_le store cb policy fuel (i + 1) _ req hreq

theorem batchSaveLoop_chunk_le
    (store : Nat → List AVMap → Except String (Option (List AVMap)))
    (policy : List AVMap → List AVMap → List AVMap) :
    ∀ (fuel i : Nat) (ws : List AVMap),
      ∀ req ∈ (batchSaveLoop store policy fuel i ws).requests, req.length ≤ 25
  | fuel, i, [] => by simp [batchSaveLoop]
  | 0, i, w :: ws => by simp [batchSaveLoop]
  | fuel + 1, i, w :: ws => by
    intro req hreq
    have hlen : ((w :: ws).take (min (w :: ws).length 25)).length ≤ 25 := by
      simp [List.length_take]
    simp only [batchSaveLoop] at hreq
    cases hs : store i ((w :: ws).take (min (w :: ws).length 25)) with
    | error e =>
      rw [hs] at hreq
      simp only [List.mem_singleton] at hreq
      exact hreq ▸ hlen
    | ok pr =>
      rw [hs] at hreq
      simp only [List.mem_cons] at hreq
      rcases hreq with rfl | hreq
      · exact hlen
      · exact batchSaveLoop_chunk_le store policy fuel (i + 1) _ req hreq

/-- C8: every `BatchGetItem` request carries at most 100 keys and every
`BatchWriteItem` request at most 25 write requests; an empty work list ends the
loop immediately with no request, a non-empty work list keeps the loop running
(fuel exhaustion, never `done`, when the budget ends first); and after each
chunk the store's unprocessed items (empty when the store reports none) are
passed together with the unsent remainder to the continuation policy, whose
result is exactly the next iteration's work list. -/
theorem c8_batch_chunking
    (storeG : Nat → List AVMap → Except String (List AVMap × Option (List AVMap)))
    (storeW : Nat → List AVMap → Except String (Option (List AVMap)))
    (cb : AVMap → Except String Unit)
    (policy : List AVMap → List AVMap → List AVMap)
    (fuel i : Nat) (ks : List AVMap) :
    (∀ req ∈ (batchLoadLoop storeG cb policy fuel i ks).1.requests, req.length ≤ 100)
    ∧ (∀ req ∈ (batchSaveLoop storeW policy fuel i ks).requests, req.length ≤ 25)
    ∧ batchLoadLoop storeG cb policy fuel i [] = (⟨[], .done⟩, [])
    ∧ batchSaveLoop storeW policy fuel i [] = ⟨[], .done⟩
    ∧ (ks ≠ [] → (batchLoadLoop storeG cb policy 0 i ks).1.outcome = .fuelOut)
    ∧ (∀ rs unp, ks ≠ [] →
        storeG i (ks.take (min ks.length 100)) = .ok (rs, unp) →
        (batchLoadLoop storeG cb policy (fuel + 1) i ks).1.requests
          = ks.take (min ks.length 100) ::
            (batchLoadLoop storeG cb policy fuel (i + 1)
              (policy (ks.drop (min ks.length 100)) (unp.getD []))).1.requests
        ∧ (batchLoadLoop storeG cb policy (fuel + 1) i ks).1.outcome
          = (batchLoadLoop storeG cb policy fuel (i + 1)
              (policy (ks.drop (min ks.length 100)) (unp.getD []))).1.outcome)
    ∧ (∀ unp, ks ≠ [] →
        storeW i (ks.take (min ks.length 25)) = .ok unp →
        (batchSaveLoop storeW policy (fuel + 1) i ks).requests
          = ks.take (min ks.length 25) ::
            (batchSaveLoop storeW policy fuel (i + 1)
              (policy (ks.drop (min ks.length 25)) (unp.getD []))).requests) := by
  refine ⟨batchLoadLoop_chunk_le storeG cb policy fuel i ks,
    batchSaveLoop_chunk_le storeW policy fuel i ks,
    by simp [batchLoadLoop], by simp [batchSaveLoop], ?_, ?_, ?_⟩
  · intro hne
    match ks with
    | [] => exact absurd rfl hne
    | k :: ks => simp [batchLoadLoop]
  · intro rs unp hne hs
    match ks with
    | [] => exact absurd rfl hne
    | k :: ks =>
      constructor
      · simp only [batchLoadLoop, hs]
      · simp only [batchLoadLoop, hs]
  · intro unp hne hs
    match ks with
    | [] => exact absurd rfl hne
    | k :: ks => simp only [batchSaveLoop, hs]

set_option maxRecDepth 4000 in
/-- Witness for C8 at a concrete run: 150 empty keys against a store that
reports nothing unprocessed, with the default retry policy. -/
theorem c8_batch_chunking_witness :
    (∀ req ∈ (batchLoadLoop (fun _ _ => Except.ok ([], none)) (fun _ => Except.ok ())
        batchRetryUnprocessed 2 0 (List.replicate 150 ([] : AVMap))).1.requests,
      req.length ≤ 100)
    ∧ (batchLoadLoop (fun _ _ => Except.ok ([], (none : Option (List AVMap))))
        (fun _ => Except.ok ()) batchRetryUnprocessed 2 0 ([] : List AVMap)
        = (⟨[], .done⟩, []))
    ∧ (batchLoadLoop (fun _ _ => Except.ok ([], none)) (fun _ => Except.ok ())
        batchRetryUnprocessed 2 0 (List.replicate 150 ([] : AVMap))).1.requests
      = (List.replicate 150 ([] : AVMap)).take (min (List.replicate 150 ([] : AVMap)).length 100)
        :: (batchLoadLoop (fun _ _ => Except.ok ([], none)) (fun _ => Except.ok ())
            batchRetryUnprocessed 1 1
            (batchRetryUnprocessed
              ((List.replicate 150 ([] : AVMap)).drop
                (min (List.replicate 150 ([] : AVMap)).length 100))
              ((none : Option (List AVMap)).getD []))).1.requests :=
  ⟨(c8_batch_chunking (fun _ _ => Except.ok ([], none)) (fun _ _ => Except.ok none)
      (fun _ => Except.ok ()) batchRetryUnprocessed 2 0 (List.replicate 150 [])).1,
   (c8_batch_chunking (fun _ _ => Except.ok ([], none)) (fun _ _ => Except.ok none)
      (fun _ => Except.ok ()) batchRetryUnprocessed 2 0 []).2.2.1,
   ((c8_batch_chunking (fun _ _ => Except.ok ([], none)) (fun _ _ => Except.ok none)
      (fun _ => Except.ok ()) batchRetryUnprocessed 1 0 (List.replicate 150 [])).2.2.2.2.2.1
      [] none (by simp) rfl).1⟩

theorem collectLoadKeys_mismatch : ∀ (items : List LoadItem) (t : String) (i : Nat),
    t ≠ "" → (∃ it ∈ items, it.tableName ≠ t) →
    ∃ j got, collectLoadKeys items t i = .error (j, got, t) ∧ got ≠ t ∧ i ≤ j
  | [], t, i, _, h => by simp at h
  | it :: rest, t, i, ht, h => by
    by_cases heq : it.tableName = t
    · have hrest : ∃ it2 ∈ rest, it2.tableName ≠ t := by
        rcases h with ⟨it2, hm, hne⟩
        rcases List.mem_cons.mp hm with rfl | hm2
        · exact absurd heq hne
        · exact ⟨it2, hm2, hne⟩
      obtain ⟨j, got, hc, hg, hij⟩ := collectLoadKeys_mismatch rest t (i + 1) ht hrest
      refine ⟨j, got, ?_, hg, by omega⟩
      simp only [collectLoadKeys, ht, if_false, heq, if_true, hc]
    · exact ⟨i, it.tableName, by simp [collectLoadKeys, ht, heq], heq, le_rfl⟩

theorem collectWriteRequests_mismatch : ∀ (items : List SaveItem) (t : String) (i : Nat),
    t ≠ "" → (∀ it ∈ items, ∃ m, it.marshal = .ok m) →
    (∃ it ∈ items, it.tableName ≠ t) →
    ∃ j got, collectWriteRequests items t i = .error (.tableMismatch j got t) ∧ got ≠ t
  | [], t, i, _, _, h => by simp at h
  | it :: rest, t, i, ht, hm, h => by
    obtain ⟨m, hmar⟩ := hm it (by simp)
    have hmrest : ∀ it2 ∈ rest, ∃ m2, it2.marshal = .ok m2 := fun it2 h2 => hm it2 (by simp [h2])
    by_cases heq : it.tableName = t
    · have hrest : ∃ it2 ∈ rest, it2.tableName ≠ t := by
        rcases h with ⟨it2, hmem, hne⟩
        rcases List.mem_cons.mp hmem with rfl | hm2
        · exact absurd heq hne
        · exact ⟨it2, hm2, hne⟩
      obtain ⟨j, got, hc, hg⟩ := collectWriteRequests_mismatch rest t (i + 1) ht hmrest hrest
      refine ⟨j, got, ?_, hg⟩
      simp only [collectWriteRequests, hmar, ht, if_false, heq, if_true, hc]
    · exact ⟨i, it.tableName, by simp [collectWriteRequests, hmar, ht, heq], heq⟩

/-- C9: a batch call whose items name more than one (non-empty) table returns a
configuration error identifying the offending item, and issues no request to
the store at all; for `BatchSave` this holds whenever the items also all
marshal (a marshal failure is a different error, likewise raised before any
store call). -/
theorem c9_mixed_tables_rejected_before_any_call
    (storeG : Nat → List AVMap → Except String (List AVMap × Option (List AVMap)))
    (storeW : Nat → List AVMap → Except String (Option (List AVMap)))
    (cb : AVMap → Except String Unit)
    (policy : List AVMap → List AVMap → List AVMap) (fuel : Nat)
    (it0 : LoadItem) (rest : List LoadItem)
    (st0 : SaveItem) (srest : List SaveItem)
    (h0 : it0.tableName ≠ "")
    (hmix : ∃ it ∈ rest, it.tableName ≠ it0.tableName)
    (hs0 : st0.tableName ≠ "")
    (hsm : ∀ it ∈ st0 :: srest, ∃ m, it.marshal = .ok m)
    (hsmix : ∃ it ∈ srest, it.tableName ≠ st0.tableName) :
    (∃ j got, got ≠ it0.tableName
      ∧ batchLoad storeG (it0 :: rest) cb policy fuel
        = (⟨[], .tableMismatch j got it0.tableName⟩, []))
    ∧ ∃ j got, got ≠ st0.tableName
      ∧ batchSave storeW (st0 :: srest) policy fuel
        = ⟨[], .tableMismatch j got st0.tableName⟩ := by
  constructor
  · obtain ⟨j, got, hc, hg, _⟩ := collectLoadKeys_mismatch rest it0.tableName 1 h0 hmix
    refine ⟨j, got, hg, ?_⟩
    simp [batchLoad, collectLoadKeys, hc]
  · obtain ⟨m0, hm0⟩ := hsm st0 (by simp)
    have hmrest : ∀ it ∈ srest, ∃ m, it.marshal = .ok m := fun it h2 => hsm it (by simp [h2])
    obtain ⟨j, got, hc, hg⟩ := collectWriteRequests_mismatch srest st0.tableName 1 hs0
      hmrest hsmix
    refine ⟨j, got, hg, ?_⟩
    simp [batchSave, collectWriteRequests, hm0, hc]

/-- Witness for C9: two loadable items and two savable items naming tables
`"A"` and `"B"`. -/
theorem c9_mixed_tables_rejected_before_any_call_witness :
    (∃ j got, got ≠ "A"
      ∧ batchLoad (fun _ _ => Except.ok ([], none)) [⟨"A", []⟩, ⟨"B", []⟩]
          (fun _ => Except.ok ()) batchRetryUnprocessed 5
        = (⟨[], .tableMismatch j got "A"⟩, []))
    ∧ ∃ j got, got ≠ "A"
      ∧ batchSave (fun _ _ => Except.ok none) [⟨"A", .ok []⟩, ⟨"B", .ok []⟩]
          batchRetryUnprocessed 5
        = ⟨[], .tableMismatch j got "A"⟩ :=
  c9_mixed_tables_rejected_before_any_call (fun _ _ => Except.ok ([], none))
    (fun _ _ => Except.ok none) (fun _ => Except.ok ()) batchRetryUnprocessed 5
    ⟨"A", []⟩ [⟨"B", []⟩] ⟨"A", .ok []⟩ [⟨"B", .ok []⟩]
    (by decide) ⟨⟨"B", []⟩, by simp, by decide⟩ (by decide)
    (by intro it hm; rcases List.mem_cons.mp hm with rfl | hm2
        · exact ⟨[], rfl⟩
        · simp only [List.mem_singleton] at hm2
          exact ⟨[], by rw [hm2]⟩)
    ⟨⟨"B", .ok []⟩, by simp, by decide⟩

theorem batchLoadLoop_cb_irrelevant
    (store : Nat → List AVMap → Except String (List AVMap × Option (List AVMap)))
    (policy : List AVMap → List AVMap → List AVMap)
    (cb cb2 : AVMap → Except String Unit) :
    ∀ (fuel i : Nat) (ks : List AVMap),
      (batchLoadLoop store cb policy fuel i ks).1
        = (batchLoadLoop store cb2 policy fuel i ks).1
  | fuel, i, [] => by simp [batchLoadLoop]
  | 0, i, k :: ks => by simp [batchLoadLoop]
  | fuel + 1, i, k :: ks => by
    simp only [batchLoadLoop]
    cases hs : store i ((k :: ks).take (min (k :: ks).length 100)) with
    | error e => rfl
    | ok pr =>
      have ih := batchLoadLoop_cb_irrelevant store policy cb cb2 fuel (i + 1)
        (policy ((k :: ks).drop (min (k :: ks).length 100)) (pr.2.getD []))
      simp only [ih]

/-- C10: the error value returned by `BatchLoad`'s per-item callback is
discarded: the requests issued, the retry behavior and the call's own outcome
are identical for any two callbacks — in particular a callback that always
fails neither stops the loop nor surfaces in the result, whose only error
outcomes are the table-name configuration error and store errors (see
`BatchOutcome`). -/
theorem c10_item_callback_error_discarded
    (store : Nat → List AVMap → Except String (List AVMap × Option (List AVMap)))
    (items : List LoadItem)
    (cb cb2 : AVMap → Except String Unit)
    (policy : List AVMap → List AVMap → List AVMap) (fuel : Nat) :
    (batchLoad store items cb policy fuel).1 = (batchLoad store items cb2 policy fuel).1 := by
  simp only [batchLoad]
  cases hc : collectLoadKeys items "" 0 with
  | error e => rfl
  | ok pr => exact batchLoadLoop_cb_irrelevant store policy cb cb2 fuel 0 pr.2

end Golambda
